import Mathlib

/-!
Verification of the audio segmentation and concurrent transcription pipeline
implemented in `src/audio_processing.rs` of the hearing-site backend.

Embedding conventions:
* `usize` values are embedded as `ℕ`.  Theorems whose scope could otherwise
  reach wrap-around of 64-bit arithmetic carry an explicit bound hypothesis
  (`… ≤ USIZE`) so that the `ℕ` model provably coincides with the machine
  arithmetic on the stated domain.
* Fallible Rust code (`Result`) is embedded as `Except String α`; a Rust
  panic (the division by zero that `total_segments` performs when the derived
  segment duration is `0`) is a distinct `RunOutcome.panicked` constructor.
* External effects (running the media tool, creating the working directory,
  the HTTP request) are parameters of the embedded functions: each external
  interaction is an `Except`-valued input, and the orchestrator additionally
  returns the list of external calls it performs, so that claims about
  "no segmentation or transcription call happens" are statable.
* The `f64` values that `get_audio_duration` parses and combines are embedded
  bit-faithfully as IEEE-754 binary64 (`F64`): a decimal literal is rounded to
  the nearest binary64 (ties to even) by exact integer arithmetic, addition
  and multiplication by a constant round their exact result the same way
  (with overflow to infinity), and the `as usize` cast truncates toward zero
  and saturates.  Signed zeros and infinities are modelled; NaN is a single
  value (the code never inspects payloads); the exponent, infinity and NaN
  *literal* forms of Rust's float grammar are not modelled in the parser
  (the duration claims only concern digit strings).
* Concurrency is embedded by making the order in which the per-segment units
  write their result slot an arbitrary permutation of the unit indices
  (`runUnits` folds the writes in any given order); the orchestrator's final
  assembly reads the slot vector once, after all writes.
-/

/-- Decidable equality for `Except`, used to evaluate the embedded fallible
functions on concrete inputs. -/
instance {ε α : Type} [DecidableEq ε] [DecidableEq α] : DecidableEq (Except ε α) :=
  fun x y =>
    match x, y with
    | Except.error e, Except.error f =>
      if h : e = f then Decidable.isTrue (by rw [h])
      else Decidable.isFalse (fun hc => h (Except.error.inj hc))
    | Except.ok a, Except.ok b =>
      if h : a = b then Decidable.isTrue (by rw [h])
      else Decidable.isFalse (fun hc => h (Except.ok.inj hc))
    | Except.error _, Except.ok _ => Decidable.isFalse (fun hc => Except.noConfusion hc)
    | Except.ok _, Except.error _ => Decidable.isFalse (fun hc => Except.noConfusion hc)

/-- The modulus of 64-bit `usize` arithmetic. -/
def USIZE : Nat := 2 ^ 64

/-- From `total_segments` in `audio_processing.rs`:
`(total_duration + segment_duration_secs - 1) / segment_duration_secs`.
For `segment_duration_secs = 0` the Rust code panics with a division by zero;
that panic is modelled at the call site (`split_audio_by_size_and_transcribe`)
and this function is only meaningful for a positive segment duration. -/
def total_segments (total_duration segment_duration_secs : Nat) : Nat :=
  (total_duration + segment_duration_secs - 1) / segment_duration_secs

/-- The fan-out loop `for i in 0.. { let start_time = i * segment_duration_secs;
if start_time >= total_duration { break } … }`, embedded with explicit fuel
(the loop body spawns unit `i` whenever its start lies before the total
duration).  Returns the indices of the spawned units, in spawn order. -/
def spawnIndicesFrom (total_duration segment_duration_secs : Nat) :
    Nat → Nat → List Nat
  | _, 0 => []
  | i, fuel + 1 =>
    if i * segment_duration_secs < total_duration then
      i :: spawnIndicesFrom total_duration segment_duration_secs (i + 1) fuel
    else []

/-- The indices spawned by the fan-out loop, starting at `i = 0`.  Fuel
`total_duration + 1` is sufficient for every positive segment duration. -/
def spawnIndices (total_duration segment_duration_secs : Nat) : List Nat :=
  spawnIndicesFrom total_duration segment_duration_secs 0 (total_duration + 1)

/-- One completed unit's effect on the transcription slot vector: on success
the unit executes `transcriptions_lock[i] = Some(transcription)`; on failure
it writes nothing (the error is only printed). -/
def writeSlot (slots : List (Option String)) (i : Nat) (v : Option String) :
    List (Option String) :=
  match v with
  | some t => slots.set i (some t)
  | none => slots

/-- The slot vector `vec![None; n]` after the `n` concurrent units have
completed in the order given by `order` (an arbitrary interleaving), where
`outcome i` is the result unit `i` obtained. -/
def runUnits (n : Nat) (outcome : Nat → Option String) (order : List Nat) :
    List (Option String) :=
  order.foldl (fun slots i => writeSlot slots i (outcome i)) (List.replicate n none)

/-- Final assembly `transcriptions_lock.clone().into_iter().filter_map(|t| t)`:
successful texts in slot order, failed slots silently dropped. -/
def assemble (slots : List (Option String)) : List String :=
  slots.filterMap id

/-- Indices of the segments whose unit produced a transcription, in ascending
order. -/
def successIndices (n : Nat) (outcome : Nat → Option String) : List Nat :=
  (List.range n).filter (fun i => (outcome i).isSome)

-- ### The duration probe (`get_audio_duration`)

/-- Substring test on character lists, modelling Rust's `str::contains`. -/
def hasSubstr (needle : List Char) : List Char → Bool
  | [] => needle.isEmpty
  | c :: rest => needle.isPrefixOf (c :: rest) || hasSubstr needle rest

/-- Split a character list at every occurrence of `sep`, keeping empty
pieces, modelling Rust's `str::split` with a single-character separator. -/
def splitOnChar (sep : Char) : List Char → List (List Char)
  | [] => [[]]
  | c :: rest =>
    match splitOnChar sep rest with
    | [] => [[c]]
    | h :: tl => if c = sep then [] :: h :: tl else (c :: h) :: tl

/-- Rust's `str::lines`: split on a line feed and strip one trailing
carriage return from each line. -/
def rustLines (s : String) : List String :=
  (splitOnChar (Char.ofNat 10) s.toList).map
    (fun l => String.mk (if l.getLast? = some (Char.ofNat 13) then l.dropLast else l))

/-- `output_str.lines().find(|line| line.contains("Duration"))`. -/
def firstDurationLine (stderr_text : String) : Option String :=
  (rustLines stderr_text).find? (fun l => hasSubstr "Duration".toList l.toList)

/-- Helper for `splitWs`: the accumulator holds the current token reversed. -/
def splitWsAux : List Char → List Char → List String
  | [], acc => if acc.isEmpty then [] else [String.mk acc.reverse]
  | c :: rest, acc =>
    if c.isWhitespace then
      if acc.isEmpty then splitWsAux rest []
      else String.mk acc.reverse :: splitWsAux rest []
    else splitWsAux rest (c :: acc)

/-- Rust's `str::split_whitespace` (maximal non-whitespace tokens, empties
skipped).  Rust recognizes all Unicode whitespace while `Char.isWhitespace`
recognizes the ASCII subset; the diagnostic lines concerned here are ASCII. -/
def splitWs (s : String) : List String :=
  splitWsAux s.toList []

/-- `duration_line.split_whitespace().nth(1).unwrap_or("")`. -/
def secondToken (line : String) : String :=
  (splitWs line).getD 1 ""

/-- `duration_str.trim_end_matches(',')`: remove every trailing comma. -/
def trimEndCommas (s : String) : String :=
  String.mk ((s.toList.reverse.dropWhile (fun c => c = ',')).reverse)

/-- `duration_str.trim_end_matches(',').split(':').collect()` applied to the
second whitespace token of the duration line. -/
def timeParts (line : String) : List String :=
  (splitOnChar ':' (trimEndCommas (secondToken line)).toList).map String.mk

/-- Value of a most-significant-first digit string, with accumulator. -/
def digitsToNatAux : Nat → List Char → Nat
  | acc, [] => acc
  | acc, c :: cs => digitsToNatAux (acc * 10 + (c.toNat - 48)) cs

/-- Value of a most-significant-first digit string. -/
def digitsToNat (l : List Char) : Nat :=
  digitsToNatAux 0 l

/-- Number of binary digits of `n` (0 for 0), computed with fuel. -/
def bitlenAux : Nat → Nat → Nat
  | 0, _ => 0
  | fuel + 1, n => if n = 0 then 0 else bitlenAux fuel (n / 2) + 1

/-- Number of binary digits of `n`: for `n ≥ 1`,
`2 ^ (bitlen n - 1) ≤ n < 2 ^ bitlen n`. -/
def bitlen (n : Nat) : Nat :=
  bitlenAux n n

/-- An IEEE-754 binary64 value, the embedding of the `f64` values flowing
through the duration computation: a finite value is
`(-1)^sign * mantissa * 2^exp2` with `mantissa < 2^53` (normal values are
produced with `mantissa ≥ 2^52`), plus signed infinities and NaN. -/
inductive F64 where
  | finite (sign : Bool) (mantissa : Nat) (exp2 : Int)
  | inf (sign : Bool)
  | nan
deriving DecidableEq

/-- IEEE-754 negation: flip the sign bit. -/
def f64Neg : F64 → F64
  | F64.finite s m g => F64.finite (!s) m g
  | F64.inf s => F64.inf (!s)
  | F64.nan => F64.nan

/-- Attach a sign to a nonnegative rounding result. -/
def applySign (s : Bool) (x : F64) : F64 :=
  if s then f64Neg x else x

/-- Nearest integer to `A / B` with ties to even, via Euclidean division. -/
def roundScaledNum (A B : Nat) : Nat :=
  let m0 := A / B
  let r := A % B
  if 2 * r < B then m0
  else if B < 2 * r then m0 + 1
  else if m0 % 2 = 0 then m0 else m0 + 1

/-- The binary exponent of `N / D` (for `N, D ≥ 1`): the unique `e` with
`2 ^ e ≤ N / D < 2 ^ (e + 1)`, found from the bit lengths and one exact
comparison. -/
def f64ExpOf (N D : Nat) : Int :=
  let e0 : Int := (bitlen N : Int) - (bitlen D : Int)
  if D * 2 ^ e0.toNat ≤ N * 2 ^ ((-e0).toNat) then e0 else e0 - 1

/-- Round the positive rational `N / D` (`N, D ≥ 1`) to the nearest binary64
(ties to even): pick the grid `2 ^ g` of the result (subnormal grid
`2 ^ (-1074)` below the normal range), round the scaled value to the nearest
grid point, renormalize a mantissa carry, and overflow to infinity beyond
the largest exponent. -/
def roundPosCore (N D : Nat) : F64 :=
  let e := f64ExpOf N D
  let g : Int := max (e - 52) (-1074)
  let m := roundScaledNum (N * 2 ^ ((-g).toNat)) (D * 2 ^ g.toNat)
  let mg : Nat × Int := if m = 2 ^ 53 then (2 ^ 52, g + 1) else (m, g)
  if mg.2 > 971 then F64.inf false else F64.finite false mg.1 mg.2

/-- Round the exact value `M * 2 ^ g` (`M : ℕ`) to the nearest binary64. -/
def roundDyadic (M : Nat) (g : Int) : F64 :=
  if M = 0 then F64.finite false 0 0
  else if 0 ≤ g then roundPosCore (M * 2 ^ g.toNat) 1
  else roundPosCore M (2 ^ (-g).toNat)

/-- The binary64 nearest to the decimal `N / 10 ^ k`, as produced by Rust's
`str::parse::<f64>` on an unsigned decimal literal. -/
def decToF64 (N k : Nat) : F64 :=
  if N = 0 then F64.finite false 0 0 else roundPosCore N (10 ^ k)

/-- IEEE-754 multiplication of `x` by the exactly representable constant
`c : ℕ` (the code multiplies by `3600.0` and `60.0`): round the exact
product. -/
def f64MulNat (c : Nat) (x : F64) : F64 :=
  match x with
  | F64.nan => F64.nan
  | F64.inf s => if c = 0 then F64.nan else F64.inf s
  | F64.finite s m g => applySign s (roundDyadic (c * m) g)

/-- IEEE-754 addition: round the exact sum; infinities of opposite sign give
NaN, and an exactly zero sum of nonzero operands is `+0` (it is `-0` only
when both operands are `-0`). -/
def f64Add (x y : F64) : F64 :=
  match x, y with
  | F64.nan, _ => F64.nan
  | _, F64.nan => F64.nan
  | F64.inf s, F64.inf t => if s = t then F64.inf s else F64.nan
  | F64.inf s, F64.finite _ _ _ => F64.inf s
  | F64.finite _ _ _, F64.inf s => F64.inf s
  | F64.finite s1 m1 g1, F64.finite s2 m2 g2 =>
    let gmin := min g1 g2
    let M1 : Int := (if s1 then -(m1 : Int) else (m1 : Int)) * 2 ^ (g1 - gmin).toNat
    let M2 : Int := (if s2 then -(m2 : Int) else (m2 : Int)) * 2 ^ (g2 - gmin).toNat
    let S := M1 + M2
    if S = 0 then F64.finite (s1 && s2) 0 0
    else applySign (S < 0) (roundDyadic S.natAbs gmin)

/-- Rust's saturating `as usize` cast of an `f64`: truncate toward zero and
clamp into `[0, 2^64 - 1]`; NaN casts to 0. -/
def f64ToUsize : F64 → Nat
  | F64.nan => 0
  | F64.inf s => if s then 0 else USIZE - 1
  | F64.finite s m g =>
    if s then 0
    else min (if 0 ≤ g then m * 2 ^ g.toNat else m / 2 ^ (-g).toNat) (USIZE - 1)

/-- The rational value `2 ^ t` (`t : ℤ`), used to state facts about binary64
values: a finite `F64.finite false m g` stands for the rational `m * pow2 g`. -/
def pow2 (t : Int) : ℚ :=
  (2 : ℚ) ^ t

/-- `x` is a finite nonnegative binary64 value representing the natural
number `k` exactly. -/
def f64RealizesNat (x : F64) (k : Nat) : Prop :=
  ∃ m g, x = F64.finite false m g ∧ m < 2 ^ 53 ∧ (m : ℚ) * pow2 g = (k : ℚ)

/-- The payload-digit part of Rust's `str::parse::<f64>` on plain decimal
literals: an optional run of digits, an optional point, an optional run of
fraction digits, at least one digit in total.  Exponent, infinity and NaN
forms are not modelled (see the header note). -/
def parseUnsigned (l : List Char) : Option F64 :=
  let ip := l.takeWhile (fun c => c.isDigit)
  match l.dropWhile (fun c => c.isDigit) with
  | [] => if ip.isEmpty then none else some (decToF64 (digitsToNat ip) 0)
  | c :: fp =>
    if c = '.' && fp.all (fun c2 => c2.isDigit) && !(ip.isEmpty && fp.isEmpty) then
      some (decToF64 (digitsToNat ip * 10 ^ fp.length + digitsToNat fp) fp.length)
    else none

/-- Rust's `str::parse::<f64>` on plain decimal literals with optional sign,
on a character list. -/
def parseF64Chars : List Char → Option F64
  | [] => none
  | c :: cs =>
    if c = '-' then (parseUnsigned cs).map f64Neg
    else if c = '+' then parseUnsigned cs
    else parseUnsigned (c :: cs)

/-- Rust's `str::parse::<f64>` on plain decimal literals with optional sign. -/
def parseF64 (s : String) : Option F64 :=
  parseF64Chars s.toList

/-- The parsing part of `get_audio_duration`, applied to the diagnostic
(stderr) text of the probe invocation: find the first line containing
`Duration`, take its second whitespace token, trim trailing commas, split on
colons, and on a three-part value compute
`hours * 3600.0 + minutes * 60.0 + seconds` in binary64, cast to `usize`. -/
def parse_duration (stderr_text : String) : Except String Nat :=
  match firstDurationLine stderr_text with
  | none => Except.error "Duration not found"
  | some line =>
    match timeParts line with
    | [p0, p1, p2] =>
      match parseF64 p0, parseF64 p1, parseF64 p2 with
      | some hours, some minutes, some seconds =>
        Except.ok (f64ToUsize (f64Add (f64Add (f64MulNat 3600 hours)
          (f64MulNat 60 minutes)) seconds))
      | _, _, _ => Except.error "invalid float literal"
    | _ => Except.error "Duration not found"

/-- `get_audio_duration`: run the probe process (its outcome is the
parameter: an error if the tool cannot run, otherwise the diagnostic text)
and parse the duration out of the diagnostic text. -/
def get_audio_duration (probeRun : Except String String) : Except String Nat :=
  match probeRun with
  | Except.error e => Except.error e
  | Except.ok stderr_text => parse_duration stderr_text

-- ### The orchestrator (`split_audio_by_size_and_transcribe`)

/-- External calls the pipeline can make besides the initial probe. -/
inductive ExtCall where
  | probeCall
  | splitCall (idx start dur : Nat)
  | transcribeCall (idx : Nat)
deriving DecidableEq

/-- Outcome of one pipeline run: a returned value, a returned error, or a
Rust panic. -/
inductive RunOutcome where
  | ok (texts : List String)
  | err (msg : String)
  | panicked
deriving DecidableEq

/-- The body of one spawned unit, as a slot value: `split_audio_segment(…)?`
aborts the unit on a segmentation error (nothing written), then a
transcription success writes the text into slot `i` and a transcription
failure is only printed. -/
def unitOutcome (split : Nat → Except String Unit)
    (transcribe : Nat → Except String String) (i : Nat) : Option String :=
  match split i with
  | Except.error _ => none
  | Except.ok _ =>
    match transcribe i with
    | Except.ok t => some t
    | Except.error _ => none

/-- The external calls unit `i` performs: always its `ffmpeg` cut (at start
`i * d` with duration `d`), then the transcription request only when the cut
succeeded. -/
def unitCalls (split : Nat → Except String Unit) (d i : Nat) : List ExtCall :=
  ExtCall.splitCall i (i * d) d ::
    (match split i with
     | Except.ok _ => [ExtCall.transcribeCall i]
     | Except.error _ => [])

/-- `split_audio_by_size_and_transcribe`, with its external interactions as
parameters: `file_stem` is the result of extracting the input's base name,
`mkdirResult` the result of ensuring the `split_audio` directory exists,
`probeRun` the probe invocation's outcome, and `split` / `transcribe` the
per-index outcomes of the two per-segment external steps.  Returns the run
outcome together with the external calls performed.  The derived
`segment_duration_secs` is `max_segment_size / (128000 / 8)`; when it is `0`
the Rust code panics inside `total_segments` (division by zero) after the
probe but before spawning any unit. -/
def split_audio_by_size_and_transcribe (file_stem : Option String)
    (mkdirResult : Except String Unit) (probeRun : Except String String)
    (split : Nat → Except String Unit) (transcribe : Nat → Except String String)
    (max_segment_size : Nat) : RunOutcome × List ExtCall :=
  match file_stem with
  | none => (RunOutcome.err "Failed to extract file stem", [])
  | some _ =>
    match mkdirResult with
    | Except.error e => (RunOutcome.err e, [])
    | Except.ok _ =>
      let segment_duration_secs := max_segment_size / (128000 / 8)
      match get_audio_duration probeRun with
      | Except.error e => (RunOutcome.err e, [ExtCall.probeCall])
      | Except.ok total_duration =>
        if segment_duration_secs = 0 then
          (RunOutcome.panicked, [ExtCall.probeCall])
        else
          let idxs := spawnIndices total_duration segment_duration_secs
          let slots := runUnits (total_segments total_duration segment_duration_secs)
            (unitOutcome split transcribe) idxs
          (RunOutcome.ok (assemble slots),
            ExtCall.probeCall :: (idxs.map (unitCalls split segment_duration_secs)).flatten)

-- ### Segment file naming

/-- `let output_extension = "mp3"`. -/
def output_extension : String := "mp3"

/-- `let split_dir = PathBuf::from("split_audio")`: a fixed directory shared
by every run. -/
def splitDirName : String := "split_audio"

/-- `format!("{}_part{}.{}", base_filename, i + 1, output_extension)`. -/
def segment_filename (base_filename : String) (i : Nat) : String :=
  base_filename ++ "_part" ++ toString (i + 1) ++ "." ++ output_extension

/-- `split_dir.join(&segment_filename)` (Unix path join). -/
def segment_path (base_filename : String) (i : Nat) : String :=
  splitDirName ++ "/" ++ segment_filename base_filename i

/-- The directory component of a path: everything before the last slash. -/
def dirOf (p : String) : String :=
  String.mk (((p.toList.reverse.dropWhile (fun c => c ≠ '/')).drop 1).reverse)

/-- The extension of a path: everything after the last dot. -/
def extensionOf (p : String) : String :=
  String.mk ((p.toList.reverse.takeWhile (fun c => c ≠ '.')).reverse)

-- ### The transcription client (`send_transcription_request`)

/-- A JSON value, as needed for the transcription response body. -/
inductive Json where
  | null
  | bool (b : Bool)
  | num (n : Int)
  | str (s : String)
  | arr (elems : List Json)
  | obj (fields : List (String × Json))

/-- The transcription endpoint's HTTP response: its status class and the
result of reading the body as JSON (an error when the body is not valid
JSON, which `response.json().await?` propagates). -/
structure HttpResponse where
  statusSuccess : Bool
  body : Except String Json

/-- `transcription["text"].as_str()`: indexing a non-object yields JSON null,
a missing key yields JSON null, and `as_str` yields the string payload only
for a JSON string. -/
def jsonGetStr (j : Json) (key : String) : Option String :=
  match j with
  | Json.obj fields =>
    match fields.lookup key with
    | some (Json.str s) => some s
    | _ => none
  | _ => none

/-- `send_transcription_request`, with its two external interactions as
parameters: `fileOpen` is the outcome of opening the segment file for
streaming and `send` the outcome of the HTTP call (the constant
`audio/mpeg` MIME string is valid, so `mime_str` cannot fail).  Returns the
call's result together with the number of HTTP requests performed. -/
def send_transcription_request (fileOpen : Except String Unit)
    (send : Except String HttpResponse) : Except String String × Nat :=
  match fileOpen with
  | Except.error e => (Except.error e, 0)
  | Except.ok _ =>
    match send with
    | Except.error e => (Except.error e, 1)
    | Except.ok response =>
      if response.statusSuccess then
        match response.body with
        | Except.error e => (Except.error e, 1)
        | Except.ok j =>
          match jsonGetStr j "text" with
          | some t => (Except.ok t, 1)
          | none => (Except.error "Failed to get transcription", 1)
      else (Except.error "Failed to get transcription", 1)

-- ### Lemmas about the segment plan

theorem le_total_segments_mul (t d : Nat) (hd : 0 < d) :
    t ≤ total_segments t d * d := by
  have h : t + d - 1 < (total_segments t d + 1) * d :=
    (Nat.div_lt_iff_lt_mul hd).mp (Nat.lt_succ_self _)
  rw [Nat.succ_mul] at h
  generalize total_segments t d * d = B at h ⊢
  omega

theorem total_segments_mul_lt (t d : Nat) (hd : 0 < d) :
    total_segments t d * d < t + d := by
  have h : total_segments t d * d ≤ t + d - 1 := Nat.div_mul_le_self _ _
  generalize total_segments t d * d = B at h ⊢
  omega

theorem spawn_iff (t d i : Nat) (hd : 0 < d) :
    i * d < t ↔ i < total_segments t d := by
  constructor
  · intro h
    exact Nat.lt_of_mul_lt_mul_right (lt_of_lt_of_le h (le_total_segments_mul t d hd))
  · intro h
    have h1 : (i + 1) * d ≤ total_segments t d * d := Nat.mul_le_mul_right d h
    have h2 := total_segments_mul_lt t d hd
    rw [Nat.succ_mul] at h1
    generalize total_segments t d * d = B at h1 h2
    omega

theorem total_segments_le (t d : Nat) (hd : 0 < d) : total_segments t d ≤ t := by
  have h : t ≤ t * d := Nat.le_mul_of_pos_right t hd
  apply Nat.lt_succ_iff.mp
  apply (Nat.div_lt_iff_lt_mul hd).mpr
  rw [Nat.succ_mul]
  omega

theorem spawnIndicesFrom_eq_range' (t d : Nat) (hd : 0 < d) :
    ∀ fuel i, total_segments t d ≤ i + fuel →
      spawnIndicesFrom t d i fuel = List.range' i (total_segments t d - i) := by
  intro fuel
  induction fuel with
  | zero =>
    intro i h
    have : total_segments t d - i = 0 := by omega
    simp [spawnIndicesFrom, this]
  | succ fuel ih =>
    intro i h
    by_cases hi : i * d < t
    · have hik : i < total_segments t d := (spawn_iff t d i hd).mp hi
      rw [spawnIndicesFrom, if_pos hi, ih (i + 1) (by omega)]
      have hsub : total_segments t d - i = (total_segments t d - (i + 1)) + 1 := by
        omega
      rw [hsub, List.range'_succ]
    · have hik : ¬ i < total_segments t d := fun hk => hi ((spawn_iff t d i hd).mpr hk)
      have : total_segments t d - i = 0 := by omega
      rw [spawnIndicesFrom, if_neg hi, this]
      simp

theorem spawnIndices_eq_range (t d : Nat) (hd : 0 < d) :
    spawnIndices t d = List.range (total_segments t d) := by
  rw [spawnIndices, spawnIndicesFrom_eq_range' t d hd (t + 1) 0
    (by simpa using Nat.le_succ_of_le (total_segments_le t d hd)), Nat.sub_zero,
    List.range_eq_range']

-- ### Lemmas about the slot vector

theorem writeSlot_length (s : List (Option String)) (j : Nat) (v : Option String) :
    (writeSlot s j v).length = s.length := by
  cases v <;> simp [writeSlot]

theorem foldl_writeSlot_length (outcome : Nat → Option String) :
    ∀ (order : List Nat) (s : List (Option String)),
      (order.foldl (fun slots j => writeSlot slots j (outcome j)) s).length = s.length := by
  intro order
  induction order with
  | nil => intro s; rfl
  | cons j rest ih =>
    intro s
    rw [List.foldl_cons, ih, writeSlot_length]

theorem foldl_writeSlot_getElem (outcome : Nat → Option String) :
    ∀ (order : List Nat) (s : List (Option String)) (i : Nat), i < s.length →
      (order.foldl (fun slots j => writeSlot slots j (outcome j)) s)[i]? =
        if i ∈ order ∧ (outcome i).isSome then some (outcome i) else s[i]? := by
  intro order
  induction order with
  | nil => intro s i hi; simp
  | cons j rest ih =>
    intro s i hi
    rw [List.foldl_cons, ih _ i (by rw [writeSlot_length]; exact hi)]
    by_cases hrest : i ∈ rest ∧ (outcome i).isSome
    · rw [if_pos hrest, if_pos ⟨List.mem_cons_of_mem _ hrest.1, hrest.2⟩]
    · rw [if_neg hrest]
      by_cases hij : i = j
      · subst hij
        cases hsome : outcome i with
        | some v =>
          rw [if_pos ⟨List.mem_cons_self _ _, rfl⟩]
          exact List.getElem?_set_self hi
        | none =>
          rw [if_neg (fun hc => Bool.noConfusion hc.2)]
          rfl
      · have hnc : ¬ (i ∈ j :: rest ∧ (outcome i).isSome) := by
          intro hc
          rcases List.mem_cons.mp hc.1 with h | h
          · exact hij h
          · exact hrest ⟨h, hc.2⟩
        rw [if_neg hnc]
        show (writeSlot s j (outcome j))[i]? = s[i]?
        cases outcome j with
        | some v => exact List.getElem?_set_ne (fun h => hij h.symm)
        | none => rfl

theorem runUnits_length (n : Nat) (outcome : Nat → Option String) (order : List Nat) :
    (runUnits n outcome order).length = n := by
  rw [runUnits, foldl_writeSlot_length, List.length_replicate]

theorem runUnits_getElem (n : Nat) (outcome : Nat → Option String) (order : List Nat)
    (i : Nat) (hi : i < n) (hmem : i ∈ order) :
    (runUnits n outcome order)[i]? = some (outcome i) := by
  rw [runUnits, foldl_writeSlot_getElem outcome order _ i (by simpa using hi)]
  by_cases h : (outcome i).isSome
  · rw [if_pos ⟨hmem, h⟩]
  · rw [if_neg (fun hc => h hc.2), List.getElem?_replicate, if_pos hi]
    cases hsome : outcome i with
    | some v => exact absurd (by rw [hsome]; rfl) h
    | none => rfl

theorem runUnits_eq_map (n : Nat) (outcome : Nat → Option String) (order : List Nat)
    (hcov : ∀ i, i < n → i ∈ order) :
    runUnits n outcome order = (List.range n).map outcome := by
  apply List.ext_getElem?
  intro i
  by_cases hi : i < n
  · rw [runUnits_getElem n outcome order i hi (hcov i hi)]
    rw [List.getElem?_map, List.getElem?_range hi]
    rfl
  · rw [List.getElem?_eq_none (by rw [runUnits_length]; omega),
      List.getElem?_eq_none (by simp; omega)]

theorem assemble_runUnits (n : Nat) (outcome : Nat → Option String) (order : List Nat)
    (hcov : ∀ i, i < n → i ∈ order) :
    assemble (runUnits n outcome order) = (List.range n).filterMap outcome := by
  rw [assemble, runUnits_eq_map n outcome order hcov, List.filterMap_map]
  rfl

theorem filterMap_eq_filter_map {α β : Type} (f : α → Option β) (dflt : β) :
    ∀ l : List α,
      l.filterMap f = (l.filter (fun a => (f a).isSome)).map (fun a => (f a).getD dflt) := by
  intro l
  induction l with
  | nil => rfl
  | cons a t ih =>
    cases h : f a with
    | none => simp [List.filterMap_cons, List.filter_cons, h, ih]
    | some v => simp [List.filterMap_cons, List.filter_cons, h, ih]

-- ### Claim theorems

/-- C1 — Segment plan correctness: for every nonnegative total duration and
positive segment duration (within the usize range), the orchestrator's
segment count `total_segments` equals the rational ceiling of
`total_duration / segment_duration_secs` (in particular it is `0` for a zero
total duration), the fan-out loop spawns exactly the units `0, …, count - 1`
(unit `i` starting at `i * segment_duration_secs`), the planned ranges
`[i*d, (i+1)*d)` tile `[0, total_duration)` without gaps or overlaps, every
non-final range lies inside the total duration (only the final segment may be
cut short), and an exactly divisible total leaves no undersized trailing
segment. -/
theorem segment_plan_correct (t d : Nat) (hd : 0 < d) (hfit : t + d ≤ USIZE) :
    ((total_segments t d : ℤ) = ⌈(t : ℚ) / (d : ℚ)⌉)
    ∧ (t = 0 → total_segments t d = 0)
    ∧ spawnIndices t d = List.range (total_segments t d)
    ∧ (∀ x, x < t → ∃! i, i < total_segments t d ∧ i * d ≤ x ∧ x < (i + 1) * d)
    ∧ (∀ i, i + 1 < total_segments t d → (i + 1) * d ≤ t)
    ∧ (d ∣ t → total_segments t d * d = t) := by
  have hdq : (0 : ℚ) < (d : ℚ) := by exact_mod_cast hd
  refine ⟨?_, ?_, spawnIndices_eq_range t d hd, ?_, ?_, ?_⟩
  · symm
    rw [Int.ceil_eq_iff]
    constructor
    · rw [lt_div_iff hdq]
      have h : (total_segments t d * d : ℚ) < (t : ℚ) + (d : ℚ) := by
        exact_mod_cast total_segments_mul_lt t d hd
      push_cast
      nlinarith
    · rw [div_le_iff hdq]
      have h : (t : ℚ) ≤ (total_segments t d * d : ℚ) := by
        exact_mod_cast le_total_segments_mul t d hd
      push_cast at h ⊢
      linarith
  · intro h0
    subst h0
    exact Nat.div_eq_of_lt (by omega)
  · intro x hx
    refine ⟨x / d, ⟨?_, Nat.div_mul_le_self x d, ?_⟩, ?_⟩
    · rw [Nat.div_lt_iff_lt_mul hd]
      exact lt_of_lt_of_le hx (le_total_segments_mul t d hd)
    · exact (Nat.div_lt_iff_lt_mul hd).mp (Nat.lt_succ_self (x / d))
    · rintro y ⟨hy1, hy2, hy3⟩
      have h1 : y ≤ x / d := (Nat.le_div_iff_mul_le hd).mpr hy2
      have h2 : x / d < y + 1 := (Nat.div_lt_iff_lt_mul hd).mpr hy3
      omega
  · intro i hi
    exact le_of_lt ((spawn_iff t d (i + 1) hd).mpr hi)
  · rintro ⟨m, rfl⟩
    have heq : d * m + d - 1 = d * m + (d - 1) := by omega
    rw [total_segments, heq, Nat.mul_add_div hd m (d - 1),
      Nat.div_eq_of_lt (by omega)]
    ring

/-- Witness for C1 at `total_duration = 10`, `segment_duration_secs = 3`. -/
theorem segment_plan_correct_witness :
    (0 < 3 ∧ 10 + 3 ≤ USIZE) ∧ spawnIndices 10 3 = List.range (total_segments 10 3) :=
  ⟨⟨by decide, by decide⟩, (segment_plan_correct 10 3 (by decide) (by decide)).2.2.1⟩

/-- C10 — Implicit slot-bounds safety: for every positive total duration and
positive segment duration (within the usize range), the fan-out loop spawns
exactly as many units as the pre-allocated transcription slot vector
`vec![None; total_segments(…)]` has slots, and every spawned index is below
that length, so every slot write `transcriptions_lock[i]` is in bounds and
the indexing never panics. -/
theorem slot_write_in_bounds (t d : Nat) (ht : 0 < t) (hd : 0 < d)
    (hfit : t + d ≤ USIZE) :
    (spawnIndices t d).length = total_segments t d
    ∧ ∀ i ∈ spawnIndices t d, i < total_segments t d := by
  rw [spawnIndices_eq_range t d hd]
  exact ⟨List.length_range _, fun i hi => List.mem_range.mp hi⟩

/-- Witness for C10 at `total_duration = 7`, `segment_duration_secs = 2`. -/
theorem slot_write_in_bounds_witness :
    (0 < 7 ∧ 0 < 2 ∧ 7 + 2 ≤ USIZE)
    ∧ (spawnIndices 7 2).length = total_segments 7 2 :=
  ⟨⟨by decide, by decide, by decide⟩,
    (slot_write_in_bounds 7 2 (by decide) (by decide) (by decide)).1⟩

/-- C2 — Order preservation: for every segment count `n`, every assignment of
per-index unit outcomes and every completion order (any permutation of the
`n` unit indices), the assembled sequence is the successful texts listed by
ascending segment index — equal to filtering the outcomes over `0, …, n-1` in
index order, i.e. to mapping the strictly ascending list of successful
indices — independently of the completion order. -/
theorem order_preservation (n : Nat) (outcome : Nat → Option String)
    (order : List Nat) (hperm : order.Perm (List.range n)) :
    assemble (runUnits n outcome order) = (List.range n).filterMap outcome
    ∧ List.Pairwise (· < ·) (successIndices n outcome)
    ∧ assemble (runUnits n outcome order) =
        (successIndices n outcome).map (fun i => (outcome i).getD "") := by
  have hcov : ∀ i, i < n → i ∈ order := fun i hi =>
    hperm.mem_iff.mpr (List.mem_range.mpr hi)
  have h1 := assemble_runUnits n outcome order hcov
  refine ⟨h1, (List.pairwise_lt_range n).filter _, ?_⟩
  rw [h1, successIndices, filterMap_eq_filter_map outcome ""]

/-- Witness for C2: three segments completing in the order 2, 0, 1, with the
middle segment failed. -/
theorem order_preservation_witness :
    ([2, 0, 1] : List Nat).Perm (List.range 3)
    ∧ assemble (runUnits 3 (fun i => if i = 1 then none else some (toString i)) [2, 0, 1])
        = (List.range 3).filterMap (fun i => if i = 1 then none else some (toString i)) :=
  ⟨by decide,
    (order_preservation 3 (fun i => if i = 1 then none else some (toString i))
      [2, 0, 1] (by decide)).1⟩

-- ### Lemmas about the orchestrator

theorem pipeline_run_ok (s : String) (probeRun : Except String String)
    (split : Nat → Except String Unit) (transcribe : Nat → Except String String)
    (max_segment_size t : Nat)
    (hprobe : get_audio_duration probeRun = Except.ok t)
    (hmax : 16000 ≤ max_segment_size) :
    split_audio_by_size_and_transcribe (some s) (Except.ok ()) probeRun split
        transcribe max_segment_size =
      (RunOutcome.ok ((List.range (total_segments t (max_segment_size / 16000))).filterMap
          (unitOutcome split transcribe)),
        ExtCall.probeCall :: ((List.range (total_segments t (max_segment_size / 16000))).map
          (unitCalls split (max_segment_size / 16000))).flatten) := by
  have hd : 0 < max_segment_size / 16000 :=
    (Nat.le_div_iff_mul_le (by norm_num)).mpr (by omega)
  have h16 : (128000 : Nat) / 8 = 16000 := by norm_num
  unfold split_audio_by_size_and_transcribe
  rw [hprobe]
  simp only [h16]
  rw [if_neg (by omega)]
  rw [spawnIndices_eq_range t (max_segment_size / 16000) hd,
    assemble_runUnits _ _ _ (fun i hi => List.mem_range.mpr hi)]

/-- C3 — Per-segment failure isolation with silent drop: whenever the probe
succeeds (and the configured size is valid), every per-segment segmentation
or transcription failure is absorbed at the unit boundary: the run still
returns `Ok` with exactly the successful texts in index order (each failed
segment's text simply absent, no gap marker, no failure count), and any unit
whose own steps succeed contributes its text regardless of how the sibling
units fail. -/
theorem failure_isolation (s : String) (probeRun : Except String String)
    (split : Nat → Except String Unit) (transcribe : Nat → Except String String)
    (max_segment_size t : Nat)
    (hprobe : get_audio_duration probeRun = Except.ok t)
    (hmax : 16000 ≤ max_segment_size)
    (hfit : t + max_segment_size / 16000 ≤ USIZE) :
    (split_audio_by_size_and_transcribe (some s) (Except.ok ()) probeRun split
        transcribe max_segment_size).1 =
      RunOutcome.ok ((List.range (total_segments t (max_segment_size / 16000))).filterMap
        (unitOutcome split transcribe))
    ∧ ∀ i txt, i < total_segments t (max_segment_size / 16000) →
        unitOutcome split transcribe i = some txt →
        txt ∈ (List.range (total_segments t (max_segment_size / 16000))).filterMap
          (unitOutcome split transcribe) := by
  constructor
  · rw [pipeline_run_ok s probeRun split transcribe max_segment_size t hprobe hmax]
  · intro i txt hi hout
    exact List.mem_filterMap.mpr ⟨i, List.mem_range.mpr hi, hout⟩

/-- Witness for C3: a two-segment run whose second segment fails to split;
the run returns the first segment's text only. -/
theorem failure_isolation_witness :
    (split_audio_by_size_and_transcribe (some "a") (Except.ok ())
        (Except.ok "Duration: 00:00:02,")
        (fun i => if i = 0 then Except.ok () else Except.error "ffmpeg command failed")
        (fun _ => Except.ok "hello") 16000).1 =
      RunOutcome.ok ((List.range (total_segments 2 (16000 / 16000))).filterMap
        (unitOutcome
          (fun i => if i = 0 then Except.ok () else Except.error "ffmpeg command failed")
          (fun _ => Except.ok "hello"))) :=
  (failure_isolation "a" (Except.ok "Duration: 00:00:02,")
    (fun i => if i = 0 then Except.ok () else Except.error "ffmpeg command failed")
    (fun _ => Except.ok "hello") 16000 2 (by decide) (by decide) (by decide)).1

/-- C4 (amended) — Undersized configuration panics: the derived
`segment_duration_secs` is `max_segment_size / 16000`; for every
`max_segment_size < 16000` it is `0`, and when the probe succeeds the call
panics (division by zero inside `total_segments`) before scheduling any
segmentation or transcription work — it does not return a configuration
error to the caller. -/
theorem undersized_config_panics (s stderrText : String) (t : Nat)
    (split : Nat → Except String Unit) (transcribe : Nat → Except String String)
    (max_segment_size : Nat) (hmax : max_segment_size < 16000)
    (hprobe : get_audio_duration (Except.ok stderrText) = Except.ok t) :
    split_audio_by_size_and_transcribe (some s) (Except.ok ())
        (Except.ok stderrText) split transcribe max_segment_size =
      (RunOutcome.panicked, [ExtCall.probeCall]) := by
  have h16 : (128000 : Nat) / 8 = 16000 := by norm_num
  have hd : max_segment_size / (128000 / 8) = 0 := by
    rw [h16]
    exact Nat.div_eq_of_lt hmax
  unfold split_audio_by_size_and_transcribe
  rw [hprobe]
  simp [hd]

/-- Counterexample for C4 as stated: at `max_segment_size = 15999` (below one
second of encoded audio) with a successful probe, the run does not reject the
call with a configuration error — it panics. -/
theorem undersized_config_counterexample :
    split_audio_by_size_and_transcribe (some "audio") (Except.ok ())
        (Except.ok "Duration: 00:00:10, x") (fun _ => Except.ok ())
        (fun _ => Except.ok "text") 15999 =
      (RunOutcome.panicked, [ExtCall.probeCall]) := by
  decide

/-- Witness for the amended C4 at `max_segment_size = 100`. -/
theorem undersized_config_panics_witness :
    split_audio_by_size_and_transcribe (some "a") (Except.ok ())
        (Except.ok "Duration: 00:00:05,") (fun _ => Except.ok ())
        (fun _ => Except.ok "t") 100 =
      (RunOutcome.panicked, [ExtCall.probeCall]) :=
  undersized_config_panics "a" "Duration: 00:00:05," 5 (fun _ => Except.ok ())
    (fun _ => Except.ok "t") 100 (by decide) (by decide)

/-- C5 — Probe fail-fast: whenever the duration probe fails (the tool cannot
run, or its diagnostic output yields no parseable duration), the pipeline
returns that error and performs no segmentation or transcription call — the
probe is the only external call. -/
theorem probe_fail_fast (s e : String) (probeRun : Except String String)
    (split : Nat → Except String Unit) (transcribe : Nat → Except String String)
    (max_segment_size : Nat)
    (hprobe : get_audio_duration probeRun = Except.error e) :
    split_audio_by_size_and_transcribe (some s) (Except.ok ()) probeRun split
        transcribe max_segment_size =
      (RunOutcome.err e, [ExtCall.probeCall]) := by
  unfold split_audio_by_size_and_transcribe
  rw [hprobe]

/-- Witness for C5: the probe tool fails to run. -/
theorem probe_fail_fast_witness :
    split_audio_by_size_and_transcribe (some "a") (Except.ok ())
        (Except.error "No such file or directory") (fun _ => Except.ok ())
        (fun _ => Except.ok "t") 16000 =
      (RunOutcome.err "No such file or directory", [ExtCall.probeCall]) :=
  probe_fail_fast "a" "No such file or directory" (Except.error "No such file or directory")
    (fun _ => Except.ok ()) (fun _ => Except.ok "t") 16000 (by decide)

/-- C6 — Zero-duration boundary: if the probe reports a total duration of
`0` (and the configured size is valid), the pipeline succeeds with an empty
sequence, spawning no unit and making no segmentation or transcription
call. -/
theorem zero_duration_empty (s : String) (probeRun : Except String String)
    (split : Nat → Except String Unit) (transcribe : Nat → Except String String)
    (max_segment_size : Nat)
    (hprobe : get_audio_duration probeRun = Except.ok 0)
    (hmax : 16000 ≤ max_segment_size) :
    split_audio_by_size_and_transcribe (some s) (Except.ok ()) probeRun split
        transcribe max_segment_size =
      (RunOutcome.ok [], [ExtCall.probeCall]) := by
  rw [pipeline_run_ok s probeRun split transcribe max_segment_size 0 hprobe hmax]
  have h0 : total_segments 0 (max_segment_size / 16000) = 0 :=
    Nat.div_eq_of_lt (by omega)
  rw [h0]
  rfl

/-- Witness for C6: a probe output of `00:00:00.99` (integer-truncated to a
zero duration). -/
theorem zero_duration_empty_witness :
    split_audio_by_size_and_transcribe (some "a") (Except.ok ())
        (Except.ok "Duration: 00:00:00.99,") (fun _ => Except.ok ())
        (fun _ => Except.ok "t") 16000 =
      (RunOutcome.ok [], [ExtCall.probeCall]) :=
  zero_duration_empty "a" (Except.ok "Duration: 00:00:00.99,")
    (fun _ => Except.ok ()) (fun _ => Except.ok "t") 16000 (by decide) (by decide)

-- ### Lemmas about duration parsing

theorem isDigit_toNat_bounds (c : Char) (h : c.isDigit = true) :
    48 ≤ c.toNat ∧ c.toNat ≤ 57 := by
  simp only [Char.isDigit, Bool.and_eq_true, decide_eq_true_eq] at h
  exact ⟨h.1, h.2⟩

theorem digitsToNatAux_lt (l : List Char) (h : ∀ c ∈ l, c.isDigit = true) :
    ∀ acc, digitsToNatAux acc l < (acc + 1) * 10 ^ l.length := by
  induction l with
  | nil =>
    intro acc
    have hgoal : acc < (acc + 1) * 10 ^ (0 : Nat) := by
      simpa using Nat.lt_succ_self acc
    exact hgoal
  | cons c cs ih =>
    intro acc
    have hc := isDigit_toNat_bounds c (h c (List.mem_cons_self _ _))
    have hrec := ih (fun x hx => h x (List.mem_cons_of_mem _ hx)) (acc * 10 + (c.toNat - 48))
    have hstep : (acc * 10 + (c.toNat - 48) + 1) * 10 ^ cs.length ≤
        ((acc + 1) * 10) * 10 ^ cs.length :=
      Nat.mul_le_mul_right _ (by omega)
    have hpow : ((acc + 1) * 10) * 10 ^ cs.length = (acc + 1) * 10 ^ (cs.length + 1) := by
      rw [pow_succ]
      ring
    have hgoal : digitsToNatAux (acc * 10 + (c.toNat - 48)) cs <
        (acc + 1) * 10 ^ (cs.length + 1) := by
      rw [← hpow]
      exact lt_of_lt_of_le hrec hstep
    exact hgoal

theorem digitsToNat_lt_pow (l : List Char) (h : ∀ c ∈ l, c.isDigit = true) :
    digitsToNat l < 10 ^ l.length := by
  have := digitsToNatAux_lt l h 0
  simpa [digitsToNat] using this

theorem takeWhile_append_all {p : Char → Bool} (l1 l2 : List Char)
    (h : ∀ c ∈ l1, p c = true) :
    (l1 ++ l2).takeWhile p = l1 ++ l2.takeWhile p := by
  induction l1 with
  | nil => rfl
  | cons c cs ih =>
    rw [List.cons_append, List.takeWhile_cons,
      if_pos (h c (List.mem_cons_self _ _)),
      ih (fun x hx => h x (List.mem_cons_of_mem _ hx)), List.cons_append]

theorem dropWhile_append_all {p : Char → Bool} (l1 l2 : List Char)
    (h : ∀ c ∈ l1, p c = true) :
    (l1 ++ l2).dropWhile p = l2.dropWhile p := by
  induction l1 with
  | nil => rfl
  | cons c cs ih =>
    rw [List.cons_append, List.dropWhile_cons,
      if_pos (h c (List.mem_cons_self _ _)),
      ih (fun x hx => h x (List.mem_cons_of_mem _ hx))]

theorem parseUnsigned_digits (l : List Char) (hne : l ≠ [])
    (h : ∀ c ∈ l, c.isDigit = true) :
    parseUnsigned l = some (decToF64 (digitsToNat l) 0) := by
  have h1 : l.takeWhile (fun c => c.isDigit) = l :=
    List.takeWhile_eq_self_iff.mpr h
  have h2 : l.dropWhile (fun c => c.isDigit) = [] :=
    List.dropWhile_eq_nil_iff.mpr h
  have h3 : l.isEmpty = false := by
    cases l with
    | nil => exact absurd rfl hne
    | cons c cs => rfl
  simp only [parseUnsigned, h1, h2, h3]
  rfl

theorem parseUnsigned_frac (ip fp : List Char) (hip : ip ≠ [])
    (h1 : ∀ c ∈ ip, c.isDigit = true) (h2 : ∀ c ∈ fp, c.isDigit = true) :
    parseUnsigned (ip ++ ('.' : Char) :: fp) =
      some (decToF64 (digitsToNat ip * 10 ^ fp.length + digitsToNat fp) fp.length) := by
  have htake : (ip ++ ('.' : Char) :: fp).takeWhile (fun c => c.isDigit) = ip := by
    rw [takeWhile_append_all ip _ h1, List.takeWhile_cons,
      if_neg (by decide : ¬ (('.' : Char).isDigit = true)), List.append_nil]
  have hdrop : (ip ++ ('.' : Char) :: fp).dropWhile (fun c => c.isDigit) =
      ('.' : Char) :: fp := by
    rw [dropWhile_append_all ip _ h1, List.dropWhile_cons,
      if_neg (by decide : ¬ (('.' : Char).isDigit = true))]
  have ha : fp.all (fun c2 => c2.isDigit) = true := List.all_eq_true.mpr h2
  have hb : ip.isEmpty = false := by
    cases ip with
    | nil => exact absurd rfl hip
    | cons c cs => rfl
  simp only [parseUnsigned, htake, hdrop]
  simp [ha, hb]

theorem parseF64Chars_digits (l : List Char) (hne : l ≠ [])
    (h : ∀ c ∈ l, c.isDigit = true) :
    parseF64Chars l = some (decToF64 (digitsToNat l) 0) := by
  cases l with
  | nil => exact absurd rfl hne
  | cons c cs =>
    have hc := h c (List.mem_cons_self _ _)
    have hminus : ¬ (c = ('-' : Char)) := by
      intro he
      rw [he] at hc
      exact absurd hc (by decide)
    have hplus : ¬ (c = ('+' : Char)) := by
      intro he
      rw [he] at hc
      exact absurd hc (by decide)
    simp only [parseF64Chars]
    rw [if_neg hminus, if_neg hplus]
    exact parseUnsigned_digits (c :: cs) hne h

theorem parseF64Chars_frac (ss fr : List Char) (hss : ss ≠ [])
    (h1 : ∀ c ∈ ss, c.isDigit = true) (h2 : ∀ c ∈ fr, c.isDigit = true) :
    parseF64Chars (ss ++ ('.' : Char) :: fr) =
      some (decToF64 (digitsToNat ss * 10 ^ fr.length + digitsToNat fr) fr.length) := by
  cases ss with
  | nil => exact absurd rfl hss
  | cons c cs =>
    have hc := h1 c (List.mem_cons_self _ _)
    have hminus : ¬ (c = ('-' : Char)) := by
      intro he
      rw [he] at hc
      exact absurd hc (by decide)
    have hplus : ¬ (c = ('+' : Char)) := by
      intro he
      rw [he] at hc
      exact absurd hc (by decide)
    rw [List.cons_append]
    simp only [parseF64Chars]
    rw [if_neg hminus, if_neg hplus]
    exact parseUnsigned_frac (c :: cs) fr (List.cons_ne_nil c cs) h1 h2

theorem parse_duration_of_line (out line : String)
    (hline : firstDurationLine out = some line) :
    parse_duration out =
      (match timeParts line with
        | [p0, p1, p2] =>
          (match parseF64 p0, parseF64 p1, parseF64 p2 with
            | some hours, some minutes, some seconds =>
              Except.ok (f64ToUsize (f64Add (f64Add (f64MulNat 3600 hours)
                (f64MulNat 60 minutes)) seconds))
            | _, _, _ => Except.error "invalid float literal")
        | _ => Except.error "Duration not found") := by
  unfold parse_duration
  rw [hline]

/-- C8 — Transcription client raises-iff: `send_transcription_request`
returns the response body's `text` string exactly when the segment file
opens, the HTTP call succeeds, the response status is a success and the JSON
body carries a string `text` field; in every other case (file open failure,
network error, non-success status, missing/non-string `text` field or
unparseable body) it returns an error; and it performs at most one HTTP
request per call (no retry). -/
theorem transcription_client_raises_iff (fileOpen : Except String Unit)
    (send : Except String HttpResponse) :
    (send_transcription_request fileOpen send).2 ≤ 1
    ∧ ∀ t, ((send_transcription_request fileOpen send).1 = Except.ok t ↔
        (fileOpen = Except.ok () ∧ ∃ r, send = Except.ok r ∧ r.statusSuccess = true ∧
          ∃ j, r.body = Except.ok j ∧ jsonGetStr j "text" = some t)) := by
  rcases fileOpen with e | u
  · simp [send_transcription_request]
  · rcases send with e2 | r
    · simp [send_transcription_request]
    · rcases r with ⟨hs, hb⟩
      cases hs
      · simp [send_transcription_request]
      · rcases hb with e3 | j
        · simp [send_transcription_request]
        · cases hj : jsonGetStr j "text" with
          | none => simp [send_transcription_request, hj]
          | some tv => simp [send_transcription_request, hj]

-- ### Lemmas about segment file naming

theorem extensionOf_dot_mp3 (pre : String) :
    extensionOf (pre ++ "." ++ "mp3") = "mp3" := by
  unfold extensionOf
  have h1 : (pre ++ "." ++ "mp3").toList = (pre.toList ++ [('.' : Char)]) ++
      [('m' : Char), ('p' : Char), ('3' : Char)] := by
    show (pre ++ "." ++ "mp3").data = _
    rw [String.data_append, String.data_append]
    rfl
  rw [h1, List.reverse_append, List.reverse_append]
  rw [(by rfl : ([('m' : Char), ('p' : Char), ('3' : Char)]).reverse =
    [('3' : Char), ('p' : Char), ('m' : Char)])]
  rw [(by rfl : ([('.' : Char)]).reverse = [('.' : Char)])]
  rw [takeWhile_append_all [('3' : Char), ('p' : Char), ('m' : Char)] _ (by decide)]
  rw [List.singleton_append, List.takeWhile_cons]
  rw [if_neg (by decide)]
  rfl

/-- C9 (amended) — Segment file placement and naming: every segment file is
written into the fixed directory `split_audio` shared by all runs (not a
directory dedicated to the run), under the deterministic name
`{base}_part{i+1}.mp3` built from the source's base name and the segment
index, with the fixed `mp3` extension matching the encode target. -/
theorem segment_file_naming (base_filename : String) (i : Nat) :
    segment_path base_filename i = splitDirName ++ "/" ++ segment_filename base_filename i
    ∧ segment_filename base_filename i =
        base_filename ++ "_part" ++ toString (i + 1) ++ "." ++ output_extension
    ∧ extensionOf (segment_path base_filename i) = "mp3" := by
  refine ⟨rfl, rfl, ?_⟩
  show extensionOf (splitDirName ++ "/" ++ (base_filename ++ "_part" ++ toString (i + 1)
    ++ "." ++ output_extension)) = "mp3"
  have hassoc : splitDirName ++ "/" ++ (base_filename ++ "_part" ++ toString (i + 1)
      ++ "." ++ output_extension) =
      (splitDirName ++ "/" ++ base_filename ++ "_part" ++ toString (i + 1)) ++ "." ++ "mp3" := by
    show String.mk _ = String.mk _
    simp [String.data_append, List.append_assoc]
  rw [hassoc]
  exact extensionOf_dot_mp3 _

/-- Counterexample for C9 as stated: two runs over different source files
place their segment files in the same directory `split_audio` — the working
directory is global, not dedicated to a run. -/
theorem segment_dir_shared_counterexample :
    dirOf (segment_path "a" 0) = "split_audio"
    ∧ dirOf (segment_path "b" 3) = "split_audio"
    ∧ ("a" : String) ≠ "b" := by
  decide

-- ### Lemmas about binary64 rounding

theorem pow2_pos (t : Int) : 0 < pow2 t := by
  unfold pow2
  positivity

theorem pow2_ne_zero (t : Int) : pow2 t ≠ 0 :=
  ne_of_gt (pow2_pos t)

theorem pow2_add (s t : Int) : pow2 (s + t) = pow2 s * pow2 t :=
  zpow_add₀ (by norm_num) s t

theorem pow2_natCast (k : Nat) : pow2 (k : Int) = (2 : ℚ) ^ k :=
  zpow_natCast 2 k

theorem pow2_zero_eq : pow2 0 = 1 := rfl

theorem pow2_mono {s t : Int} (h : s ≤ t) : pow2 s ≤ pow2 t :=
  zpow_le_zpow_right₀ (by norm_num) h

theorem pow2_strictMono {s t : Int} (h : s < t) : pow2 s < pow2 t :=
  zpow_lt_zpow_right₀ (by norm_num) h

theorem pow2_lt_reflect {s t : Int} (h : pow2 s < pow2 t) : s < t :=
  (zpow_lt_zpow_iff_right₀ (by norm_num)).mp h

theorem pow2_of_nonneg {t : Int} (h : 0 ≤ t) : pow2 t = ((2 ^ t.toNat : Nat) : ℚ) := by
  unfold pow2
  push_cast
  rw [← zpow_natCast, Int.toNat_of_nonneg h]

theorem pow2_toNat_mul (s t : Int) : pow2 s * pow2 (-s) = 1 := by
  rw [← pow2_add]
  simp [pow2]

theorem bitlenAux_zero (fuel : Nat) : bitlenAux fuel 0 = 0 := by
  cases fuel with
  | zero => rfl
  | succ fuel => simp [bitlenAux]

theorem bitlenAux_spec :
    ∀ fuel n, n ≤ fuel → 1 ≤ n →
      2 ^ (bitlenAux fuel n - 1) ≤ n ∧ n < 2 ^ bitlenAux fuel n := by
  intro fuel
  induction fuel with
  | zero => intro n h1 h2; omega
  | succ fuel ih =>
    intro n h1 h2
    have hstep : bitlenAux (fuel + 1) n = bitlenAux fuel (n / 2) + 1 := by
      simp [bitlenAux]
      omega
    by_cases hone : n = 1
    · subst hone
      rw [hstep, bitlenAux_zero]
      norm_num
    · have hn2 : 2 ≤ n := by omega
      have hfuel : n / 2 ≤ fuel := by omega
      have hpos : 1 ≤ n / 2 := by omega
      obtain ⟨hl, hr⟩ := ih (n / 2) hfuel hpos
      have hb1 : 1 ≤ bitlenAux fuel (n / 2) := by
        by_contra hb
        have : bitlenAux fuel (n / 2) = 0 := by omega
        rw [this] at hr
        omega
      rw [hstep]
      constructor
      · have h2l : 2 ^ (bitlenAux fuel (n / 2) + 1 - 1) = 2 * 2 ^ (bitlenAux fuel (n / 2) - 1) := by
          rw [Nat.add_sub_cancel]
          rw [← pow_succ']
          congr 1
          omega
        rw [h2l]
        omega
      · have h2r : 2 ^ (bitlenAux fuel (n / 2) + 1) = 2 * 2 ^ bitlenAux fuel (n / 2) := by
          rw [← pow_succ']
        rw [h2r]
        omega

theorem bitlen_spec (n : Nat) (h : 1 ≤ n) :
    2 ^ (bitlen n - 1) ≤ n ∧ n < 2 ^ bitlen n :=
  bitlenAux_spec n n le_rfl h

theorem bitlen_pos (n : Nat) (h : 1 ≤ n) : 1 ≤ bitlen n := by
  obtain ⟨_, hr⟩ := bitlen_spec n h
  by_contra hb
  have hz : bitlen n = 0 := by omega
  rw [hz] at hr
  omega


-- ### Correctness of the binary64 rounding kit

theorem pow2_sub (s t : Int) : pow2 (s - t) = pow2 s / pow2 t := zpow_sub₀ (by norm_num) s t

theorem pow2_one : pow2 1 = 2 := by norm_num [pow2]

theorem pow2_succ_div (t : Int) : pow2 t / 2 = pow2 (t - 1) := by
  have h : pow2 (t - 1) * 2 = pow2 t := by
    have h2 : (2 : ℚ) = pow2 1 := by norm_num [pow2]
    rw [h2, ← pow2_add]
    congr 1
    ring
  rw [← h]
  ring

theorem pow2_cast_div (a b : Nat) :
    ((2 ^ a : Nat) : ℚ) / ((2 ^ b : Nat) : ℚ) = pow2 ((a : Int) - (b : Int)) := by
  rw [pow2_sub, pow2_of_nonneg (t := (a : Int)) (by omega),
    pow2_of_nonneg (t := (b : Int)) (by omega)]
  simp

theorem pow2_scale_le_iff (N D : Nat) (hD : 0 < D) (t : Int) :
    (D * 2 ^ t.toNat ≤ N * 2 ^ ((-t).toNat)) ↔ (pow2 t ≤ (N : ℚ) / D) := by
  have hDq : (0 : ℚ) < (D : ℚ) := by exact_mod_cast hD
  rcases t with k | k
  · have h1 : (Int.ofNat k).toNat = k := rfl
    have h2 : (-(Int.ofNat k)).toNat = 0 := by simp
    have h3 : pow2 (Int.ofNat k) = ((2 ^ k : Nat) : ℚ) := pow2_of_nonneg (by omega)
    rw [h1, h2, pow_zero, Nat.mul_one, h3, le_div_iff₀ hDq]
    rw [show ((2 ^ k : Nat) : ℚ) * (D : ℚ) = ((D * 2 ^ k : Nat) : ℚ) by push_cast; ring]
    rw [Nat.cast_le]
  · have h1 : (Int.negSucc k).toNat = 0 := rfl
    have h2 : (-(Int.negSucc k)).toNat = k + 1 := rfl
    have h3 : pow2 (Int.negSucc k) = 1 / ((2 ^ (k + 1) : Nat) : ℚ) := by
      rw [show (Int.negSucc k) = (0 : Int) - ((k + 1 : Nat) : Int) by omega]
      rw [pow2_sub, pow2_of_nonneg (by omega : (0:Int) ≤ ((k + 1 : Nat) : Int))]
      simp [pow2]
    have hP : (0 : ℚ) < ((2 ^ (k + 1) : Nat) : ℚ) := by positivity
    rw [h1, h2, pow_zero, Nat.mul_one, h3, div_le_div_iff hP hDq, one_mul]
    rw [show (N : ℚ) * ((2 ^ (k + 1) : Nat) : ℚ) = ((N * 2 ^ (k + 1) : Nat) : ℚ) by push_cast; ring]
    rw [Nat.cast_le]

theorem f64ExpOf_spec (N D : Nat) (hN : 1 ≤ N) (hD : 1 ≤ D) :
    pow2 (f64ExpOf N D) ≤ (N : ℚ) / D ∧ (N : ℚ) / D < pow2 (f64ExpOf N D + 1) := by
  obtain ⟨hN1, hN2⟩ := bitlen_spec N hN
  obtain ⟨hD1, hD2⟩ := bitlen_spec D hD
  have hbN := bitlen_pos N hN
  have hbD := bitlen_pos D hD
  have hDq : (0 : ℚ) < (D : ℚ) := by exact_mod_cast hD
  have hsand_hi : (N : ℚ) / D < pow2 ((bitlen N : Int) - (bitlen D : Int) + 1) := by
    have hnat : N * 2 ^ (bitlen D - 1) < 2 ^ bitlen N * D := by
      have s1 : N * 2 ^ (bitlen D - 1) < 2 ^ bitlen N * 2 ^ (bitlen D - 1) :=
        mul_lt_mul_of_pos_right hN2 (by positivity)
      have s2 : 2 ^ bitlen N * 2 ^ (bitlen D - 1) ≤ 2 ^ bitlen N * D :=
        mul_le_mul_of_nonneg_left hD1 (by positivity)
      exact lt_of_lt_of_le s1 s2
    have hq : (N : ℚ) / D < ((2 ^ bitlen N : Nat) : ℚ) / ((2 ^ (bitlen D - 1) : Nat) : ℚ) := by
      rw [div_lt_div_iff hDq (by positivity)]
      exact_mod_cast hnat
    rw [pow2_cast_div] at hq
    have : ((bitlen N : Nat) : Int) - ((bitlen D - 1 : Nat) : Int) =
        (bitlen N : Int) - (bitlen D : Int) + 1 := by omega
    rw [this] at hq
    exact hq
  have hsand_lo : pow2 ((bitlen N : Int) - (bitlen D : Int) - 1) < (N : ℚ) / D := by
    have hnat : 2 ^ (bitlen N - 1) * D < N * 2 ^ bitlen D := by
      have s1 : 2 ^ (bitlen N - 1) * D ≤ N * D :=
        mul_le_mul_of_nonneg_right hN1 (by positivity)
      have s2 : N * D < N * 2 ^ bitlen D :=
        mul_lt_mul_of_pos_left hD2 (by omega)
      exact lt_of_le_of_lt s1 s2
    have hq : ((2 ^ (bitlen N - 1) : Nat) : ℚ) / ((2 ^ bitlen D : Nat) : ℚ) < (N : ℚ) / D := by
      rw [div_lt_div_iff (by positivity) hDq]
      exact_mod_cast hnat
    rw [pow2_cast_div] at hq
    have : ((bitlen N - 1 : Nat) : Int) - ((bitlen D : Nat) : Int) =
        (bitlen N : Int) - (bitlen D : Int) - 1 := by omega
    rw [this] at hq
    exact hq
  unfold f64ExpOf
  by_cases htest : D * 2 ^ ((bitlen N : Int) - (bitlen D : Int)).toNat ≤
      N * 2 ^ (-((bitlen N : Int) - (bitlen D : Int))).toNat
  · rw [if_pos htest]
    exact ⟨(pow2_scale_le_iff N D (by omega) _).mp htest, hsand_hi⟩
  · rw [if_neg htest]
    have hlt : (N : ℚ) / D < pow2 ((bitlen N : Int) - (bitlen D : Int)) := by
      by_contra hc
      exact htest ((pow2_scale_le_iff N D (by omega) _).mpr (not_lt.mp hc))
    constructor
    · exact le_of_lt hsand_lo
    · rw [show (bitlen N : Int) - (bitlen D : Int) - 1 + 1 =
        (bitlen N : Int) - (bitlen D : Int) by omega]
      exact hlt

theorem roundScaledNum_spec (A B : Nat) (hB : 0 < B) :
    2 * A ≤ 2 * (B * roundScaledNum A B) + B ∧
    2 * (B * roundScaledNum A B) ≤ 2 * A + B := by
  have h1 := Nat.div_add_mod A B
  have h2 := Nat.mod_lt A hB
  simp only [roundScaledNum]
  split_ifs with hc1 hc2 hc3
  · generalize hX : B * (A / B) = X at h1 ⊢
    omega
  · rw [Nat.mul_add, Nat.mul_one]
    generalize hX : B * (A / B) = X at h1 ⊢
    omega
  · generalize hX : B * (A / B) = X at h1 ⊢
    omega
  · rw [Nat.mul_add, Nat.mul_one]
    generalize hX : B * (A / B) = X at h1 ⊢
    omega

theorem roundScaledNum_exact (A B : Nat) (hB : 0 < B) (hdvd : B ∣ A) :
    roundScaledNum A B = A / B := by
  have hr : A % B = 0 := Nat.mod_eq_zero_of_dvd hdvd
  unfold roundScaledNum
  rw [hr]
  simp [hB]

theorem scaled_frac_eq (N D : Nat) (hD : 0 < D) (g : Int) :
    ((N * 2 ^ ((-g).toNat) : Nat) : ℚ) / ((D * 2 ^ g.toNat : Nat) : ℚ) =
      (N : ℚ) / D * pow2 (-g) := by
  have hDq : ((D : ℚ)) ≠ 0 := by positivity
  rcases g with k | k
  · have h1 : (Int.ofNat k).toNat = k := rfl
    have h2 : (-(Int.ofNat k)).toNat = 0 := by simp
    have h3 : pow2 (-(Int.ofNat k)) = 1 / ((2 ^ k : Nat) : ℚ) := by
      rw [show -(Int.ofNat k) = (0 : Int) - ((k : Nat) : Int) by omega]
      rw [pow2_sub, pow2_of_nonneg (by omega : (0:Int) ≤ ((k : Nat) : Int))]
      simp [pow2]
    rw [h1, h2, h3]
    push_cast
    have h2k : ((2 : ℚ) ^ k) ≠ 0 := by positivity
    field_simp
  · have h1 : (Int.negSucc k).toNat = 0 := rfl
    have h2 : (-(Int.negSucc k)).toNat = k + 1 := rfl
    have h3 : pow2 (-(Int.negSucc k)) = ((2 ^ (k + 1) : Nat) : ℚ) := by
      rw [show -(Int.negSucc k) = (((k + 1 : Nat) : Int)) by omega]
      exact pow2_of_nonneg (by omega)
    rw [h1, h2, h3]
    push_cast
    field_simp

theorem roundPosCore_spec (N D : Nat) (hN : 1 ≤ N) (hD : 1 ≤ D)
    (hlo : pow2 (-1022) ≤ (N : ℚ) / D) (hhi : (N : ℚ) / D < pow2 1023) :
    ∃ m g, roundPosCore N D = F64.finite false m g ∧ m < 2 ^ 53 ∧
      |(m : ℚ) * pow2 g - (N : ℚ) / D| ≤ pow2 g / 2 ∧
      |(m : ℚ) * pow2 g - (N : ℚ) / D| ≤ (N : ℚ) / D * pow2 (-53) ∧
      pow2 g ≤ (N : ℚ) / D * pow2 (-51) := by
  have hDq : (0 : ℚ) < (D : ℚ) := by exact_mod_cast hD
  have hx0 : (0 : ℚ) < (N : ℚ) / D := by positivity
  obtain ⟨he1, he2⟩ := f64ExpOf_spec N D hN hD
  have heLB : (-1022 : Int) ≤ f64ExpOf N D := by
    by_contra hc
    have h1 : f64ExpOf N D + 1 ≤ -1022 := by omega
    exact absurd hlo (not_le.mpr (lt_of_lt_of_le he2 (pow2_mono h1)))
  have heUB : f64ExpOf N D ≤ 1022 := by
    have := pow2_lt_reflect (lt_of_le_of_lt he1 hhi)
    omega
  have hgmax : max (f64ExpOf N D - 52) (-1074 : Int) = f64ExpOf N D - 52 :=
    max_eq_left (by omega)
  have hBpos : 0 < D * 2 ^ ((f64ExpOf N D - 52).toNat) :=
    Nat.mul_pos (by omega) (Nat.pos_pow_of_pos _ (by norm_num))
  have hBq : (0 : ℚ) < ((D * 2 ^ ((f64ExpOf N D - 52).toNat) : Nat) : ℚ) := by
    exact_mod_cast hBpos
  have hABx : ((N * 2 ^ ((-(f64ExpOf N D - 52)).toNat) : Nat) : ℚ) /
        ((D * 2 ^ ((f64ExpOf N D - 52).toNat) : Nat) : ℚ) =
      (N : ℚ) / D * pow2 (-(f64ExpOf N D - 52)) :=
    scaled_frac_eq N D (by omega) (f64ExpOf N D - 52)
  obtain ⟨hs1, hs2⟩ := roundScaledNum_spec
    (N * 2 ^ ((-(f64ExpOf N D - 52)).toNat)) (D * 2 ^ ((f64ExpOf N D - 52).toNat)) hBpos
  simp only [roundPosCore]
  rw [hgmax]
  set e52 : Int := f64ExpOf N D - 52 with he52
  set A : Nat := N * 2 ^ ((-e52).toNat) with hAdef
  set B : Nat := D * 2 ^ (e52.toNat) with hBdef
  set mr : Nat := roundScaledNum A B with hmrdef
  -- |mr - A/B| ≤ 1/2 in ℚ
  have hs1q : 2 * (A : ℚ) ≤ 2 * ((B : ℚ) * mr) + B := by exact_mod_cast hs1
  have hs2q : 2 * ((B : ℚ) * mr) ≤ 2 * (A : ℚ) + B := by exact_mod_cast hs2
  have hkey : |(B : ℚ) * mr - A| ≤ (B : ℚ) / 2 := by
    rw [abs_sub_le_iff]
    constructor
    · linarith
    · linarith
  have hmr_err : |(mr : ℚ) - (A : ℚ) / B| ≤ 1 / 2 := by
    have hrw : (mr : ℚ) - (A : ℚ) / B = ((B : ℚ) * mr - A) / B := by
      field_simp
      ring
    rw [hrw, abs_div, abs_of_pos hBq, div_le_div_iff hBq (by norm_num)]
    linarith
  -- value of A/B times the grid recovers x
  have hxAB : ((A : ℚ) / B) * pow2 e52 = (N : ℚ) / D := by
    rw [hABx, mul_assoc, ← pow2_add]
    rw [show -e52 + e52 = 0 by omega]
    rw [pow2_zero_eq, mul_one]
  -- the value error bound on the pre-carry pair
  have hval_err : |(mr : ℚ) * pow2 e52 - (N : ℚ) / D| ≤ pow2 e52 / 2 := by
    have h1 : (mr : ℚ) * pow2 e52 - (N : ℚ) / D = ((mr : ℚ) - (A : ℚ) / B) * pow2 e52 := by
      rw [sub_mul, hxAB]
    rw [h1, abs_mul, abs_of_pos (pow2_pos e52)]
    calc |(mr : ℚ) - (A : ℚ) / B| * pow2 e52 ≤ (1 / 2) * pow2 e52 :=
          mul_le_mul_of_nonneg_right hmr_err (le_of_lt (pow2_pos e52))
      _ = pow2 e52 / 2 := by ring
  -- A/B bounds
  have hABub : (A : ℚ) / B < 2 ^ 53 := by
    have h1 : (N : ℚ) / D * pow2 (-e52) < pow2 (f64ExpOf N D + 1) * pow2 (-e52) :=
      mul_lt_mul_of_pos_right he2 (pow2_pos _)
    rw [hABx]
    calc (N : ℚ) / D * pow2 (-e52) < pow2 (f64ExpOf N D + 1) * pow2 (-e52) := h1
      _ = pow2 (f64ExpOf N D + 1 + -e52) := (pow2_add _ _).symm
      _ = pow2 ((53 : Nat) : Int) := by rw [show f64ExpOf N D + 1 + -e52 = ((53 : Nat) : Int) by omega]
      _ = 2 ^ 53 := pow2_natCast 53
  have hABlb : (2 : ℚ) ^ 52 ≤ (A : ℚ) / B := by
    have h1 : pow2 (f64ExpOf N D) * pow2 (-e52) ≤ (N : ℚ) / D * pow2 (-e52) :=
      mul_le_mul_of_nonneg_right he1 (le_of_lt (pow2_pos _))
    rw [hABx]
    calc (2 : ℚ) ^ 52 = pow2 ((52 : Nat) : Int) := (pow2_natCast 52).symm
      _ = pow2 (f64ExpOf N D + -e52) := by rw [show f64ExpOf N D + -e52 = ((52 : Nat) : Int) by omega]
      _ = pow2 (f64ExpOf N D) * pow2 (-e52) := pow2_add _ _
      _ ≤ (N : ℚ) / D * pow2 (-e52) := h1
  have hmr_ub : mr ≤ 2 ^ 53 := by
    have h1 : (mr : ℚ) ≤ (A : ℚ) / B + 1 / 2 := by
      have := (abs_sub_le_iff.mp hmr_err).1
      linarith
    have h2 : (mr : ℚ) < ((2 ^ 53 + 1 : Nat) : ℚ) := by
      push_cast
      linarith
    have := (Nat.cast_lt (α := ℚ)).mp h2
    omega
  have hmr_lb : 2 ^ 52 ≤ mr := by
    have h1 : (A : ℚ) / B - 1 / 2 ≤ (mr : ℚ) := by
      have := (abs_sub_le_iff.mp hmr_err).2
      linarith
    have h2 : (((2 ^ 52 - 1 : Nat)) : ℚ) < (mr : ℚ) := by
      push_cast
      linarith
    have := (Nat.cast_lt (α := ℚ)).mp h2
    omega
  -- error bound in terms of x, shared by both branches
  have herr2pre : pow2 e52 / 2 ≤ (N : ℚ) / D * pow2 (-53) := by
    rw [pow2_succ_div, show e52 - 1 = f64ExpOf N D + -53 by omega, pow2_add]
    exact mul_le_mul_of_nonneg_right he1 (le_of_lt (pow2_pos _))
  by_cases hcarry : mr = 2 ^ 53
  · rw [if_pos hcarry]
    have hovf : ¬ ((2 ^ 52, e52 + 1) : Nat × Int).2 > 971 := by
      show ¬ (e52 + 1 > 971)
      omega
    rw [if_neg hovf]
    refine ⟨2 ^ 52, e52 + 1, rfl, by norm_num, ?_, ?_, ?_⟩
    · have hveq : ((2 ^ 52 : Nat) : ℚ) * pow2 (e52 + 1) = (mr : ℚ) * pow2 e52 := by
        rw [hcarry, pow2_add]
        push_cast
        rw [pow2_one]
        ring
      rw [hveq]
      calc |(mr : ℚ) * pow2 e52 - (N : ℚ) / D| ≤ pow2 e52 / 2 := hval_err
        _ ≤ pow2 (e52 + 1) / 2 := by
            have := pow2_mono (show e52 ≤ e52 + 1 by omega)
            linarith
    · have hveq : ((2 ^ 52 : Nat) : ℚ) * pow2 (e52 + 1) = (mr : ℚ) * pow2 e52 := by
        rw [hcarry, pow2_add]
        push_cast
        rw [pow2_one]
        ring
      rw [hveq]
      exact le_trans hval_err herr2pre
    · have h1 : pow2 (e52 + 1) = pow2 (f64ExpOf N D + -51) := by
        rw [show e52 + 1 = f64ExpOf N D + -51 by omega]
      rw [h1, pow2_add]
      exact mul_le_mul_of_nonneg_right he1 (le_of_lt (pow2_pos _))
  · rw [if_neg hcarry]
    have hovf : ¬ ((mr, e52) : Nat × Int).2 > 971 := by
      show ¬ (e52 > 971)
      omega
    rw [if_neg hovf]
    refine ⟨mr, e52, rfl, by omega, hval_err, le_trans hval_err herr2pre, ?_⟩
    have h1 : pow2 e52 ≤ pow2 (f64ExpOf N D + -51) :=
      pow2_mono (by omega)
    rw [pow2_add] at h1
    exact le_trans h1 (mul_le_mul_of_nonneg_right he1 (le_of_lt (pow2_pos _)))

theorem roundPosCore_exact (N D K : Nat) (hN : 1 ≤ N) (hD : 1 ≤ D)
    (hK1 : 1 ≤ K) (hK : K < 2 ^ 53) (hrep : (K : ℚ) = (N : ℚ) / D) :
    ∃ m g, roundPosCore N D = F64.finite false m g ∧ m < 2 ^ 53 ∧
      (m : ℚ) * pow2 g = (K : ℚ) := by
  have hDq : (0 : ℚ) < (D : ℚ) := by exact_mod_cast hD
  obtain ⟨he1, he2⟩ := f64ExpOf_spec N D hN hD
  rw [← hrep] at he1 he2
  have hp53 : pow2 53 = ((2 ^ 53 : Nat) : ℚ) := by
    rw [pow2_of_nonneg (by norm_num)]
    congr 1
  have heLB : (0 : Int) ≤ f64ExpOf N D := by
    by_contra hc
    push_neg at hc
    have h1 : f64ExpOf N D + 1 ≤ 0 := by omega
    have h2 : pow2 (f64ExpOf N D + 1) ≤ pow2 0 := pow2_mono h1
    have h3 : (1 : ℚ) ≤ (K : ℚ) := by exact_mod_cast hK1
    rw [pow2_zero_eq] at h2
    linarith
  have heUB : f64ExpOf N D ≤ 52 := by
    have h1 : pow2 (f64ExpOf N D) < pow2 53 := by
      rw [hp53]
      exact lt_of_le_of_lt he1 (by exact_mod_cast hK)
    have := pow2_lt_reflect h1
    omega
  have hgmax : max (f64ExpOf N D - 52) (-1074 : Int) = f64ExpOf N D - 52 :=
    max_eq_left (by omega)
  simp only [roundPosCore]
  rw [hgmax]
  set e : Int := f64ExpOf N D with he
  have heN : e.toNat ≤ 52 := by omega
  have hgnp : (e - 52).toNat = 0 := by omega
  have hgneg : (-(e - 52)).toNat = 52 - e.toNat := by omega
  set M : Nat := K * 2 ^ (52 - e.toNat) with hM
  -- N = K * D as naturals
  have hNKD : N = K * D := by
    rw [eq_div_iff (ne_of_gt hDq)] at hrep
    have : (N : ℚ) = ((K * D : Nat) : ℚ) := by
      push_cast
      linarith
    exact_mod_cast this
  have hBpos : 0 < D * 2 ^ ((e - 52).toNat) := by
    rw [hgnp]
    omega
  have hBA : N * 2 ^ ((-(e - 52)).toNat) = (D * 2 ^ ((e - 52).toNat)) * M := by
    rw [hgnp, hgneg, hNKD, hM]
    ring
  have hmr : roundScaledNum (N * 2 ^ ((-(e - 52)).toNat)) (D * 2 ^ ((e - 52)).toNat) = M := by
    rw [roundScaledNum_exact _ _ hBpos ⟨M, hBA⟩, hBA]
    exact Nat.mul_div_cancel_left M hBpos
  -- M < 2 ^ 53
  have hKub : K < 2 ^ (e.toNat + 1) := by
    have h1 : pow2 (e + 1) = ((2 ^ (e.toNat + 1) : Nat) : ℚ) := by
      rw [pow2_of_nonneg (by omega)]
      congr 2
      omega
    rw [h1] at he2
    exact_mod_cast he2
  have hM53 : M < 2 ^ 53 := by
    have h1 : M < 2 ^ (e.toNat + 1) * 2 ^ (52 - e.toNat) := by
      rw [hM]
      exact mul_lt_mul_of_pos_right hKub (by positivity)
    have h2 : 2 ^ (e.toNat + 1) * 2 ^ (52 - e.toNat) = 2 ^ 53 := by
      rw [← pow_add]
      congr 1
      omega
    omega
  rw [hmr, if_neg (by omega : ¬ (M = 2 ^ 53))]
  have hovf : ¬ (((M, e - 52) : Nat × Int).2 > 971) := by
    show ¬ (e - 52 > 971)
    omega
  rw [if_neg hovf]
  refine ⟨M, e - 52, rfl, hM53, ?_⟩
  have hMq : (M : ℚ) = (K : ℚ) * pow2 (52 - e) := by
    rw [hM, pow2_of_nonneg (by omega : (0 : Int) ≤ 52 - e)]
    push_cast
    rw [show (52 - e).toNat = 52 - e.toNat by omega]
  rw [hMq, mul_assoc, ← pow2_add, show 52 - e + (e - 52) = 0 by ring, pow2_zero_eq, mul_one]

theorem dyadic_val_nonneg (M : Nat) (g : Int) (hg : 0 ≤ g) :
    ((M * 2 ^ g.toNat : Nat) : ℚ) / ((1 : Nat) : ℚ) = (M : ℚ) * pow2 g := by
  rw [pow2_of_nonneg hg]
  push_cast
  ring

theorem dyadic_val_neg (M : Nat) (g : Int) (hg : g < 0) :
    (M : ℚ) / ((2 ^ (-g).toNat : Nat) : ℚ) = (M : ℚ) * pow2 g := by
  have h1 : ((2 ^ (-g).toNat : Nat) : ℚ) = pow2 (-g) :=
    (pow2_of_nonneg (by omega)).symm
  rw [h1, div_eq_iff (pow2_ne_zero _), mul_assoc, ← pow2_add,
    show g + -g = 0 by ring, pow2_zero_eq, mul_one]

theorem roundDyadic_exact (M : Nat) (g : Int) (K : Nat) (hM : 1 ≤ M)
    (hK1 : 1 ≤ K) (hK : K < 2 ^ 53) (hrep : (K : ℚ) = (M : ℚ) * pow2 g) :
    ∃ m gg, roundDyadic M g = F64.finite false m gg ∧ m < 2 ^ 53 ∧
      (m : ℚ) * pow2 gg = (K : ℚ) := by
  unfold roundDyadic
  rw [if_neg (by omega : ¬ (M = 0))]
  by_cases hg : 0 ≤ g
  · rw [if_pos hg]
    exact roundPosCore_exact (M * 2 ^ g.toNat) 1 K
      (Nat.mul_pos (by omega) (Nat.pos_pow_of_pos _ (by norm_num))) (by norm_num)
      hK1 hK (by rw [dyadic_val_nonneg M g hg]; exact hrep)
  · rw [if_neg hg]
    exact roundPosCore_exact M (2 ^ (-g).toNat) K hM
      (Nat.one_le_two_pow) hK1 hK
      (by rw [dyadic_val_neg M g (by omega)]; exact hrep)

theorem roundDyadic_spec (M : Nat) (g : Int) (hM : 1 ≤ M)
    (hlo : pow2 (-1022) ≤ (M : ℚ) * pow2 g)
    (hhi : (M : ℚ) * pow2 g < pow2 1023) :
    ∃ m gg, roundDyadic M g = F64.finite false m gg ∧ m < 2 ^ 53 ∧
      |(m : ℚ) * pow2 gg - (M : ℚ) * pow2 g| ≤ ((M : ℚ) * pow2 g) * pow2 (-53) := by
  unfold roundDyadic
  rw [if_neg (by omega : ¬ (M = 0))]
  by_cases hg : 0 ≤ g
  · rw [if_pos hg]
    have hval := dyadic_val_nonneg M g hg
    obtain ⟨m, gg, h1, h2, _, h4, _⟩ := roundPosCore_spec (M * 2 ^ g.toNat) 1
      (Nat.mul_pos (by omega) (Nat.pos_pow_of_pos _ (by norm_num))) (by norm_num)
      (by rw [hval]; exact hlo) (by rw [hval]; exact hhi)
    rw [hval] at h4
    exact ⟨m, gg, h1, h2, h4⟩
  · rw [if_neg hg]
    have hval := dyadic_val_neg M g (by omega)
    obtain ⟨m, gg, h1, h2, _, h4, _⟩ := roundPosCore_spec M (2 ^ (-g).toNat)
      hM (Nat.one_le_two_pow) (by rw [hval]; exact hlo) (by rw [hval]; exact hhi)
    rw [hval] at h4
    exact ⟨m, gg, h1, h2, h4⟩

theorem pow2_neg_natCast (k : Nat) : pow2 (-(k : Int)) = 1 / ((2 : ℚ) ^ k) := by
  rw [show -(k : Int) = 0 - (k : Int) by ring, pow2_sub, pow2_zero_eq, pow2_natCast]

theorem decToF64_nat (k : Nat) (hk : k < 2 ^ 53) : f64RealizesNat (decToF64 k 0) k := by
  unfold decToF64
  by_cases h0 : k = 0
  · subst h0
    exact ⟨0, 0, rfl, by norm_num, by simp⟩
  · rw [if_neg h0]
    have h1 : (k : ℚ) = (k : ℚ) / (((10 : Nat) ^ 0 : Nat) : ℚ) := by norm_num
    exact roundPosCore_exact k (10 ^ 0) k (by omega) (by norm_num) (by omega) hk h1

theorem decToF64_spec (N k : Nat) (hN : 1 ≤ N)
    (hlo : pow2 (-1022) ≤ (N : ℚ) / ((10 ^ k : Nat) : ℚ))
    (hhi : (N : ℚ) / ((10 ^ k : Nat) : ℚ) < pow2 1023) :
    ∃ m g, decToF64 N k = F64.finite false m g ∧ m < 2 ^ 53 ∧
      |(m : ℚ) * pow2 g - (N : ℚ) / ((10 ^ k : Nat) : ℚ)| ≤
        ((N : ℚ) / ((10 ^ k : Nat) : ℚ)) * pow2 (-53) := by
  unfold decToF64
  rw [if_neg (by omega : ¬ (N = 0))]
  obtain ⟨m, g, h1, h2, _, h4, _⟩ := roundPosCore_spec N (10 ^ k) hN
    (Nat.one_le_pow _ _ (by norm_num)) hlo hhi
  exact ⟨m, g, h1, h2, h4⟩

theorem f64MulNat_realizes (c h : Nat) (x : F64) (hx : f64RealizesNat x h)
    (hch : c * h < 2 ^ 53) : f64RealizesNat (f64MulNat c x) (c * h) := by
  obtain ⟨m, g, hxe, hm53, hval⟩ := hx
  subst hxe
  show f64RealizesNat (applySign false (roundDyadic (c * m) g)) (c * h)
  simp only [applySign, if_neg (by simp : ¬ (false = true))]
  by_cases hcm : c * m = 0
  · have hch0 : c * h = 0 := by
      rcases Nat.mul_eq_zero.mp hcm with hc | hm
      · simp [hc]
      · subst hm
        have : (h : ℚ) = 0 := by
          rw [← hval]
          simp
        have : h = 0 := by exact_mod_cast this
        simp [this]
    rw [hcm, hch0]
    exact ⟨0, 0, by simp [roundDyadic], by norm_num, by simp⟩
  · have hch1 : 1 ≤ c * h := by
      have hc : 1 ≤ c := by
        rcases Nat.eq_zero_or_pos c with h0 | h1
        · subst h0
          simp at hcm
        · exact h1
      have hm : 1 ≤ m := by
        rcases Nat.eq_zero_or_pos m with h0 | h1
        · subst h0
          simp at hcm
        · exact h1
      have hh : 1 ≤ h := by
        by_contra hc2
        have : h = 0 := by omega
        subst this
        have h0 : (m : ℚ) * pow2 g = 0 := by
          rw [hval]
          simp
        rcases mul_eq_zero.mp h0 with h2 | h2
        · have : m = 0 := by exact_mod_cast h2
          omega
        · exact pow2_ne_zero g h2
      exact Nat.mul_pos hc hh
    have hrep : ((c * h : Nat) : ℚ) = ((c * m : Nat) : ℚ) * pow2 g := by
      push_cast
      rw [mul_assoc, hval]
    exact roundDyadic_exact (c * m) g (c * h) (by omega) hch1 hch hrep

theorem f64Add_realizesNat (x y : F64) (a b : Nat) (hx : f64RealizesNat x a)
    (hy : f64RealizesNat y b) (hab : a + b < 2 ^ 53) :
    f64RealizesNat (f64Add x y) (a + b) := by
  obtain ⟨m1, g1, hxe, hm1, hv1⟩ := hx
  obtain ⟨m2, g2, hye, hm2, hv2⟩ := hy
  subst hxe
  subst hye
  simp only [f64Add]
  simp only [show ((false = true)) = False from by simp, if_false]
  set gmin : Int := min g1 g2 with hgmin
  set M1 : Int := (m1 : Int) * 2 ^ (g1 - gmin).toNat with hM1
  set M2 : Int := (m2 : Int) * 2 ^ (g2 - gmin).toNat with hM2
  have hM1q : ((M1 : Int) : ℚ) * pow2 gmin = (a : ℚ) := by
    rw [hM1]
    push_cast
    rw [mul_assoc, ← pow2_natCast, ← pow2_add,
      show (((g1 - gmin).toNat : Nat) : Int) + gmin = g1 by omega]
    exact hv1
  have hM2q : ((M2 : Int) : ℚ) * pow2 gmin = (b : ℚ) := by
    rw [hM2]
    push_cast
    rw [mul_assoc, ← pow2_natCast, ← pow2_add,
      show (((g2 - gmin).toNat : Nat) : Int) + gmin = g2 by omega]
    exact hv2
  have hM1nn : 0 ≤ M1 := by
    rw [hM1]
    positivity
  have hM2nn : 0 ≤ M2 := by
    rw [hM2]
    positivity
  have hSq : ((M1 + M2 : Int) : ℚ) * pow2 gmin = ((a + b : Nat) : ℚ) := by
    push_cast
    push_cast at hM1q hM2q
    rw [add_mul]
    rw [hM1q, hM2q]
  by_cases hS0 : M1 + M2 = 0
  · rw [if_pos hS0]
    have hab0 : a + b = 0 := by
      rw [hS0] at hSq
      simp at hSq
      exact_mod_cast hSq.symm
    rw [hab0]
    exact ⟨0, 0, rfl, by norm_num, by simp⟩
  · rw [if_neg hS0]
    have hSpos : 0 < M1 + M2 := by omega
    have hsign : decide (M1 + M2 < 0) = false := decide_eq_false (by omega)
    rw [hsign]
    simp only [applySign, if_neg (by simp : ¬ (false = true))]
    have hnatAbs : (((M1 + M2).natAbs : Nat) : ℚ) = ((M1 + M2 : Int) : ℚ) := by
      have h0 : |M1 + M2| = M1 + M2 := abs_of_nonneg (le_of_lt hSpos)
      rw [Int.cast_natAbs, h0]
    have hab1 : 1 ≤ a + b := by
      by_contra hc
      have h0 : a + b = 0 := by omega
      rw [h0] at hSq
      rw [Nat.cast_zero] at hSq
      have hz : ((M1 + M2 : Int) : ℚ) = 0 := by
        rcases mul_eq_zero.mp hSq with h2 | h2
        · exact h2
        · exact absurd h2 (pow2_ne_zero gmin)
      have hz2 : M1 + M2 = 0 := by exact_mod_cast hz
      exact hS0 hz2
    have hrep : ((a + b : Nat) : ℚ) = (((M1 + M2).natAbs : Nat) : ℚ) * pow2 gmin := by
      rw [hnatAbs, hSq]
    exact roundDyadic_exact (M1 + M2).natAbs gmin (a + b) (by omega) hab1 hab hrep

theorem f64Add_pos_spec (m1 m2 : Nat) (g1 g2 : Int)
    (hlo : pow2 (-1022) ≤ (m1 : ℚ) * pow2 g1 + (m2 : ℚ) * pow2 g2)
    (hhi : (m1 : ℚ) * pow2 g1 + (m2 : ℚ) * pow2 g2 < pow2 1023) :
    ∃ m g, f64Add (F64.finite false m1 g1) (F64.finite false m2 g2) =
        F64.finite false m g ∧ m < 2 ^ 53 ∧
      |(m : ℚ) * pow2 g - ((m1 : ℚ) * pow2 g1 + (m2 : ℚ) * pow2 g2)| ≤
        ((m1 : ℚ) * pow2 g1 + (m2 : ℚ) * pow2 g2) * pow2 (-53) := by
  simp only [f64Add]
  simp only [show ((false = true)) = False from by simp, if_false]
  set gmin : Int := min g1 g2 with hgmin
  set M1 : Int := (m1 : Int) * 2 ^ (g1 - gmin).toNat with hM1
  set M2 : Int := (m2 : Int) * 2 ^ (g2 - gmin).toNat with hM2
  have hM1q : ((M1 : Int) : ℚ) * pow2 gmin = (m1 : ℚ) * pow2 g1 := by
    rw [hM1]
    push_cast
    rw [mul_assoc, ← pow2_natCast, ← pow2_add,
      show (((g1 - gmin).toNat : Nat) : Int) + gmin = g1 by omega]
  have hM2q : ((M2 : Int) : ℚ) * pow2 gmin = (m2 : ℚ) * pow2 g2 := by
    rw [hM2]
    push_cast
    rw [mul_assoc, ← pow2_natCast, ← pow2_add,
      show (((g2 - gmin).toNat : Nat) : Int) + gmin = g2 by omega]
  have hM1nn : 0 ≤ M1 := by
    rw [hM1]
    positivity
  have hM2nn : 0 ≤ M2 := by
    rw [hM2]
    positivity
  have hSq : ((M1 + M2 : Int) : ℚ) * pow2 gmin =
      (m1 : ℚ) * pow2 g1 + (m2 : ℚ) * pow2 g2 := by
    push_cast
    push_cast at hM1q hM2q
    rw [add_mul, hM1q, hM2q]
  have hS0 : ¬ (M1 + M2 = 0) := by
    intro h0
    rw [h0, Int.cast_zero, zero_mul] at hSq
    have := lt_of_lt_of_le (pow2_pos (-1022)) hlo
    rw [← hSq] at this
    exact lt_irrefl _ this
  rw [if_neg hS0]
  have hSpos : 0 < M1 + M2 := by omega
  have hsign : decide (M1 + M2 < 0) = false := decide_eq_false (by omega)
  rw [hsign]
  simp only [applySign, if_neg (by simp : ¬ (false = true))]
  have hnatAbs : (((M1 + M2).natAbs : Nat) : ℚ) = ((M1 + M2 : Int) : ℚ) := by
    have h0 : |M1 + M2| = M1 + M2 := abs_of_nonneg (le_of_lt hSpos)
    rw [Int.cast_natAbs, h0]
  have hval : ((M1 + M2).natAbs : ℚ) * pow2 gmin =
      (m1 : ℚ) * pow2 g1 + (m2 : ℚ) * pow2 g2 := by
    rw [hnatAbs, hSq]
  obtain ⟨m, g, h1, h2, h3⟩ := roundDyadic_spec (M1 + M2).natAbs gmin
    (by omega) (by rw [hval]; exact hlo) (by rw [hval]; exact hhi)
  rw [hval] at h3
  exact ⟨m, g, h1, h2, h3⟩

theorem f64ToUsize_floor (m : Nat) (g : Int) (T : Nat) (hT : T < USIZE - 1)
    (h1 : (T : ℚ) ≤ (m : ℚ) * pow2 g) (h2 : (m : ℚ) * pow2 g < (T : ℚ) + 1) :
    f64ToUsize (F64.finite false m g) = T := by
  show (if (false : Bool) then 0
    else min (if 0 ≤ g then m * 2 ^ g.toNat else m / 2 ^ (-g).toNat) (USIZE - 1)) = T
  rw [if_neg (by simp : ¬ ((false : Bool) = true))]
  by_cases hg : 0 ≤ g
  · rw [if_pos hg]
    have hcast : ((m * 2 ^ g.toNat : Nat) : ℚ) = (m : ℚ) * pow2 g := by
      rw [pow2_of_nonneg hg]
      push_cast
      ring
    have hle : T ≤ m * 2 ^ g.toNat := by
      have : (T : ℚ) ≤ ((m * 2 ^ g.toNat : Nat) : ℚ) := by rw [hcast]; exact h1
      exact_mod_cast this
    have hlt : m * 2 ^ g.toNat < T + 1 := by
      have : ((m * 2 ^ g.toNat : Nat) : ℚ) < (((T + 1 : Nat)) : ℚ) := by
        rw [hcast]
        push_cast
        exact h2
      exact_mod_cast this
    have heq : m * 2 ^ g.toNat = T := by omega
    rw [heq]
    exact min_eq_left (by omega)
  · rw [if_neg hg]
    have hp : (0 : ℚ) < ((2 ^ (-g).toNat : Nat) : ℚ) := by positivity
    have hcast : pow2 (-g) = ((2 ^ (-g).toNat : Nat) : ℚ) := pow2_of_nonneg (by omega)
    have hmg : (m : ℚ) * pow2 g = (m : ℚ) / ((2 ^ (-g).toNat : Nat) : ℚ) := by
      rw [eq_div_iff (ne_of_gt hp), ← hcast, mul_assoc, ← pow2_add,
        show g + -g = 0 by ring, pow2_zero_eq, mul_one]
    rw [hmg] at h1 h2
    have hle : T * 2 ^ (-g).toNat ≤ m := by
      rw [le_div_iff₀ hp] at h1
      have : ((T * 2 ^ (-g).toNat : Nat) : ℚ) ≤ (m : ℚ) := by
        push_cast
        push_cast at h1
        linarith
      exact_mod_cast this
    have hlt : m < (T + 1) * 2 ^ (-g).toNat := by
      rw [div_lt_iff₀ hp] at h2
      have : (m : ℚ) < (((T + 1) * 2 ^ (-g).toNat : Nat) : ℚ) := by
        push_cast
        push_cast at h2
        linarith
      exact_mod_cast this
    have heq : m / 2 ^ (-g).toNat = T := Nat.div_eq_of_lt_le hle hlt
    rw [heq]
    exact min_eq_left (by omega)

set_option maxHeartbeats 1000000 in
theorem duration_arith (h m Ns k : Nat) (hh : h < 100000) (hm : m < 100000)
    (hNs : Ns < 100000 * 10 ^ k) (hk : k ≤ 6) :
    f64ToUsize (f64Add (f64Add (f64MulNat 3600 (decToF64 h 0))
      (f64MulNat 60 (decToF64 m 0))) (decToF64 Ns k)) =
      h * 3600 + m * 60 + Ns / 10 ^ k := by
  have hPpos : 0 < 10 ^ k := Nat.pos_pow_of_pos _ (by norm_num)
  have hx := decToF64_nat h (by omega)
  have hy := decToF64_nat m (by omega)
  have h1 := f64MulNat_realizes 3600 h _ hx (by omega)
  have h2 := f64MulNat_realizes 60 m _ hy (by omega)
  have h3 := f64Add_realizesNat _ _ _ _ h1 h2 (by omega)
  have hq : Ns / 10 ^ k < 100000 :=
    (Nat.div_lt_iff_lt_mul hPpos).mpr hNs
  by_cases hr : Ns % 10 ^ k = 0
  · -- the seconds literal is an exact integer: the whole chain is exact
    have hsec : f64RealizesNat (decToF64 Ns k) (Ns / 10 ^ k) := by
      by_cases hNs0 : Ns = 0
      · subst hNs0
        simp only [Nat.zero_div]
        exact ⟨0, 0, by simp [decToF64], by norm_num, by simp⟩
      · have hdm := Nat.div_add_mod Ns (10 ^ k)
        rw [hr] at hdm
        have hqpos : 1 ≤ Ns / 10 ^ k := by
          rcases Nat.eq_zero_or_pos (Ns / 10 ^ k) with h0 | h1
          · rw [h0] at hdm
            omega
          · exact h1
        have hNseq : (Ns / 10 ^ k) * 10 ^ k = Ns := by
          rw [Nat.mul_comm]
          omega
        have hrep : ((Ns / 10 ^ k : Nat) : ℚ) = (Ns : ℚ) / (((10 ^ k : Nat)) : ℚ) := by
          rw [eq_div_iff (ne_of_gt (by positivity : (0:ℚ) < ((10 ^ k : Nat) : ℚ)))]
          exact_mod_cast congrArg (fun x => ((x : Nat) : ℚ)) hNseq
        show f64RealizesNat (decToF64 Ns k) _
        unfold decToF64
        rw [if_neg hNs0]
        exact roundPosCore_exact Ns (10 ^ k) (Ns / 10 ^ k) (by omega)
          (Nat.one_le_pow _ _ (by norm_num)) hqpos (by omega) hrep
    have h4 := f64Add_realizesNat _ _ _ _ h3 hsec (by omega)
    obtain ⟨mf, gf, hfe, hmf, hval⟩ := h4
    rw [hfe]
    have hfin := f64ToUsize_floor mf gf (3600 * h + 60 * m + Ns / 10 ^ k)
      (by simp only [USIZE]; omega)
      (le_of_eq hval.symm)
      (by rw [hval]; linarith)
    rw [hfin]
    ring
  · -- fractional seconds: bounded rounding error cannot cross an integer
    have hNs1 : 1 ≤ Ns := by
      rcases Nat.eq_zero_or_pos Ns with h0 | h1
      · rw [h0] at hr
        simp at hr
      · exact h1
    have hP : (0 : ℚ) < (10 : ℚ) ^ k := by positivity
    have hPc : (((10 ^ k : Nat)) : ℚ) = (10 : ℚ) ^ k := by push_cast; ring
    have hP6 : (10 : ℚ) ^ k ≤ 10 ^ 6 := by
      have h1 : (10 : Nat) ^ k ≤ 10 ^ 6 := Nat.pow_le_pow_right (by norm_num) hk
      have h2 : (((10 ^ k : Nat)) : ℚ) ≤ (((10 ^ 6 : Nat)) : ℚ) := by exact_mod_cast h1
      push_cast at h2
      linarith
    have hNsq1 : (1 : ℚ) ≤ (Ns : ℚ) := by exact_mod_cast hNs1
    have hs_lb : (1 : ℚ) / 10 ^ 6 ≤ (Ns : ℚ) / (10 : ℚ) ^ k := by
      rw [div_le_div_iff (by norm_num) hP]
      nlinarith
    have hs_ub : (Ns : ℚ) / (10 : ℚ) ^ k < 100000 := by
      rw [div_lt_iff hP]
      have h1 : (Ns : ℚ) < ((100000 * 10 ^ k : Nat) : ℚ) := by exact_mod_cast hNs
      push_cast at h1
      linarith
    have hsp : (0 : ℚ) < (Ns : ℚ) / (10 : ℚ) ^ k := lt_of_lt_of_le (by norm_num) hs_lb
    -- the parsed seconds value
    have hp21 : pow2 (-21 : Int) = 1 / (2 : ℚ) ^ 21 := by
      rw [show (-21 : Int) = -((21 : Nat) : Int) by norm_num]
      exact pow2_neg_natCast 21
    have hp53v : pow2 (-53 : Int) = 1 / (2 : ℚ) ^ 53 := by
      rw [show (-53 : Int) = -((53 : Nat) : Int) by norm_num]
      exact pow2_neg_natCast 53
    have hlo2 : pow2 (-1022) ≤ (Ns : ℚ) / (((10 ^ k : Nat)) : ℚ) := by
      rw [hPc]
      have hA : pow2 (-1022 : Int) ≤ pow2 (-21 : Int) := pow2_mono (by omega)
      rw [hp21] at hA
      calc pow2 (-1022) ≤ 1 / (2 : ℚ) ^ 21 := hA
        _ ≤ 1 / 10 ^ 6 := by norm_num
        _ ≤ (Ns : ℚ) / (10 : ℚ) ^ k := hs_lb
    have hhi2 : (Ns : ℚ) / (((10 ^ k : Nat)) : ℚ) < pow2 1023 := by
      rw [hPc]
      have h30 : pow2 ((30 : Nat) : Int) = ((2 ^ 30 : Nat) : ℚ) := by
        rw [pow2_of_nonneg (by omega)]
        simp
      have hmono : pow2 ((30 : Nat) : Int) ≤ pow2 1023 := pow2_mono (by omega)
      have h2 : (100000 : ℚ) ≤ ((2 ^ 30 : Nat) : ℚ) := by norm_num
      linarith
    obtain ⟨m2, g2, hsece, hm2, herr2⟩ := decToF64_spec Ns k hNs1 hlo2 hhi2
    rw [hPc, hp53v] at herr2
    obtain ⟨m3, g3, h3e, hm3, h3val⟩ := h3
    push_cast at h3val
    -- linear bounds on the seconds value
    have habs2 := abs_sub_le_iff.mp herr2
    have hE : (Ns : ℚ) / (10 : ℚ) ^ k * (1 / (2 : ℚ) ^ 53) ≤ 1 / (2 : ℚ) ^ 36 := by
      linarith
    have hv2_lb : (Ns : ℚ) / (10 : ℚ) ^ k - 1 / (2 : ℚ) ^ 36 ≤ (m2 : ℚ) * pow2 g2 := by
      linarith [habs2.2]
    have hv2_ub : (m2 : ℚ) * pow2 g2 ≤ (Ns : ℚ) / (10 : ℚ) ^ k + 1 / (2 : ℚ) ^ 36 := by
      linarith [habs2.1]
    -- bounds on the integer part
    have hn_ub : (3600 : ℚ) * (h : ℚ) + 60 * (m : ℚ) < (2 : ℚ) ^ 29 := by
      have h1 : ((3600 * h + 60 * m : Nat) : ℚ) < ((2 ^ 29 : Nat) : ℚ) := by
        exact_mod_cast (by omega : 3600 * h + 60 * m < 2 ^ 29)
      push_cast at h1
      linarith
    have hn_nn : (0 : ℚ) ≤ (3600 : ℚ) * (h : ℚ) + 60 * (m : ℚ) := by positivity
    -- the final addition
    have hsum_lb : pow2 (-1022) ≤ (m3 : ℚ) * pow2 g3 + (m2 : ℚ) * pow2 g2 := by
      have hA : pow2 (-1022 : Int) ≤ pow2 (-21 : Int) := pow2_mono (by omega)
      rw [hp21] at hA
      have hv3nn : (0 : ℚ) ≤ (m3 : ℚ) * pow2 g3 := by
        rw [h3val]
        exact hn_nn
      have hlb2 : 1 / (2 : ℚ) ^ 21 ≤ (m2 : ℚ) * pow2 g2 := by linarith
      linarith
    have hsum_ub2 : (m3 : ℚ) * pow2 g3 + (m2 : ℚ) * pow2 g2 < (2 : ℚ) ^ 30 := by
      rw [h3val]
      linarith
    have hsum_ub : (m3 : ℚ) * pow2 g3 + (m2 : ℚ) * pow2 g2 < pow2 1023 := by
      have h30 : pow2 ((30 : Nat) : Int) = ((2 ^ 30 : Nat) : ℚ) := by
        rw [pow2_of_nonneg (by omega)]
        simp
      have hmono : pow2 ((30 : Nat) : Int) ≤ pow2 1023 := pow2_mono (by omega)
      have h2 : ((2 ^ 30 : Nat) : ℚ) = (2 : ℚ) ^ 30 := by push_cast; ring
      linarith
    obtain ⟨mf, gf, hadde, hmf, herrf⟩ := f64Add_pos_spec m3 m2 g3 g2 hsum_lb hsum_ub
    rw [hp53v] at herrf
    have hsum_nn : (0 : ℚ) ≤ (m3 : ℚ) * pow2 g3 + (m2 : ℚ) * pow2 g2 := by
      have hA : (0 : ℚ) ≤ (m3 : ℚ) * pow2 g3 :=
        mul_nonneg (by positivity) (le_of_lt (pow2_pos g3))
      have hB : (0 : ℚ) ≤ (m2 : ℚ) * pow2 g2 :=
        mul_nonneg (by positivity) (le_of_lt (pow2_pos g2))
      linarith
    have herrf2 : |(mf : ℚ) * pow2 gf - ((m3 : ℚ) * pow2 g3 + (m2 : ℚ) * pow2 g2)| ≤
        1 / (2 : ℚ) ^ 23 := by
      calc |(mf : ℚ) * pow2 gf - ((m3 : ℚ) * pow2 g3 + (m2 : ℚ) * pow2 g2)|
          ≤ ((m3 : ℚ) * pow2 g3 + (m2 : ℚ) * pow2 g2) * (1 / (2 : ℚ) ^ 53) := herrf
        _ ≤ (2 : ℚ) ^ 30 * (1 / (2 : ℚ) ^ 53) := by linarith
        _ ≤ 1 / (2 : ℚ) ^ 23 := by norm_num
    have habsf := abs_sub_le_iff.mp herrf2
    -- decompose the seconds value into quotient and remainder
    have hdm2 : (Ns / 10 ^ k) * 10 ^ k + Ns % 10 ^ k = Ns := by
      rw [Nat.mul_comm]
      exact Nat.div_add_mod Ns (10 ^ k)
    have hdmq : ((Ns / 10 ^ k : Nat) : ℚ) * (10 : ℚ) ^ k + ((Ns % 10 ^ k : Nat) : ℚ) =
        (Ns : ℚ) := by
      have h1 : (((Ns / 10 ^ k) * 10 ^ k + Ns % 10 ^ k : Nat) : ℚ) = (Ns : ℚ) := by
        exact_mod_cast congrArg (fun x => ((x : Nat) : ℚ)) hdm2
      push_cast at h1
      linarith
    have hsplit : (Ns : ℚ) / (10 : ℚ) ^ k =
        ((Ns / 10 ^ k : Nat) : ℚ) + ((Ns % 10 ^ k : Nat) : ℚ) / (10 : ℚ) ^ k := by
      field_simp
      linarith
    have hr1 : (1 : ℚ) ≤ ((Ns % 10 ^ k : Nat) : ℚ) := by
      exact_mod_cast (by omega : 1 ≤ Ns % 10 ^ k)
    have hrPn : Ns % 10 ^ k + 1 ≤ 10 ^ k := Nat.mod_lt Ns hPpos
    have hrP : ((Ns % 10 ^ k : Nat) : ℚ) + 1 ≤ (10 : ℚ) ^ k := by
      have h1 : ((Ns % 10 ^ k + 1 : Nat) : ℚ) ≤ (((10 ^ k : Nat)) : ℚ) := by
        exact_mod_cast hrPn
      push_cast at h1
      linarith
    have hd_lb : (1 : ℚ) / 10 ^ 6 ≤ ((Ns % 10 ^ k : Nat) : ℚ) / (10 : ℚ) ^ k := by
      rw [div_le_div_iff (by norm_num) hP]
      nlinarith
    have hd_ub : ((Ns % 10 ^ k : Nat) : ℚ) / (10 : ℚ) ^ k ≤ 1 - 1 / 10 ^ 6 := by
      rw [div_le_iff hP]
      nlinarith
    -- floor the final value
    have hTq : ((3600 * h + 60 * m + Ns / 10 ^ k : Nat) : ℚ) =
        3600 * (h : ℚ) + 60 * (m : ℚ) + ((Ns / 10 ^ k : Nat) : ℚ) := by
      push_cast
      ring
    have hfl : ((3600 * h + 60 * m + Ns / 10 ^ k : Nat) : ℚ) ≤ (mf : ℚ) * pow2 gf := by
      rw [hTq]
      linarith [habsf.2, hv2_lb, hsplit, hd_lb, h3val]
    have hfu : (mf : ℚ) * pow2 gf < ((3600 * h + 60 * m + Ns / 10 ^ k : Nat) : ℚ) + 1 := by
      rw [hTq]
      linarith [habsf.1, hv2_ub, hsplit, hd_ub, h3val]
    rw [h3e, hsece, hadde]
    rw [f64ToUsize_floor mf gf (3600 * h + 60 * m + Ns / 10 ^ k)
      (by simp only [USIZE]; omega) hfl hfu]
    ring

-- ### C7 — duration parsing

/-- C7 counterexample to the original claim: the probe line carries the
three-part value `00:00:02.9999999999999999`, an `HH:MM:SS.fraction`
pattern whose truncated value is `0 * 3600 + 0 * 60 + 2 = 2`, yet
`get_audio_duration` returns `3`: Rust first rounds the seconds literal to
the nearest binary64, which is exactly `3.0`, and only then truncates. -/
theorem duration_parsing_counterexample :
    get_audio_duration (Except.ok "  Duration: 00:00:02.9999999999999999, start") =
        Except.ok 3 ∧
    get_audio_duration (Except.ok "  Duration: 00:00:02.9999999999999999, start") ≠
        Except.ok 2 :=
  ⟨by decide, by decide⟩

/-- C7 — Duration parsing (corrected): `get_audio_duration` fails with an
error when the diagnostic text has no `Duration` line or when the time
value does not split into exactly three colon-separated parts; when the
three parts are plain digit strings `HH:MM:SS` of at most 5 digits each,
it returns exactly `HH * 3600 + MM * 60 + SS`; and when the seconds part
carries a fraction, `HH:MM:SS.F`, with at most 6 fraction digits, the
fraction is truncated away and the result is again
`HH * 3600 + MM * 60 + SS`.  The digit bounds are required: they keep the
accumulated binary64 rounding error (at most `2 ^ (-22)`) smaller than the
distance (at least `10 ^ (-6)`) from the exact value to the nearest
integers, so the rounding the code performs cannot cross the truncation
boundary.  Without such bounds the original claim is false of the code,
see `duration_parsing_counterexample`. -/
theorem duration_parsing (out line : String) (hh mm ss fr : List Char) :
    (firstDurationLine out = none →
      get_audio_duration (Except.ok out) = Except.error "Duration not found") ∧
    (firstDurationLine out = some line → (timeParts line).length ≠ 3 →
      get_audio_duration (Except.ok out) = Except.error "Duration not found") ∧
    (firstDurationLine out = some line →
      timeParts line = [String.mk hh, String.mk mm, String.mk ss] →
      (∀ c ∈ hh, c.isDigit = true) → (∀ c ∈ mm, c.isDigit = true) →
      (∀ c ∈ ss, c.isDigit = true) →
      hh ≠ [] → mm ≠ [] → ss ≠ [] →
      hh.length ≤ 5 → mm.length ≤ 5 → ss.length ≤ 5 →
      get_audio_duration (Except.ok out) =
        Except.ok (digitsToNat hh * 3600 + digitsToNat mm * 60 + digitsToNat ss)) ∧
    (firstDurationLine out = some line →
      timeParts line = [String.mk hh, String.mk mm,
        String.mk (ss ++ ('.' : Char) :: fr)] →
      (∀ c ∈ hh, c.isDigit = true) → (∀ c ∈ mm, c.isDigit = true) →
      (∀ c ∈ ss, c.isDigit = true) → (∀ c ∈ fr, c.isDigit = true) →
      hh ≠ [] → mm ≠ [] → ss ≠ [] →
      hh.length ≤ 5 → mm.length ≤ 5 → ss.length ≤ 5 → fr.length ≤ 6 →
      get_audio_duration (Except.ok out) =
        Except.ok (digitsToNat hh * 3600 + digitsToNat mm * 60 + digitsToNat ss)) := by
  refine ⟨?_, ?_, ?_, ?_⟩
  · intro h0
    show parse_duration out = _
    unfold parse_duration
    rw [h0]
  · intro hline hlen
    show parse_duration out = _
    rw [parse_duration_of_line out line hline]
    generalize hts : timeParts line = parts at hlen ⊢
    rcases parts with _ | ⟨a, _ | ⟨b, _ | ⟨c, _ | ⟨d, rest⟩⟩⟩⟩
    · rfl
    · rfl
    · rfl
    · simp at hlen
    · rfl
  · intro hline hparts hd1 hd2 hd3 hne1 hne2 hne3 hl1 hl2 hl3
    show parse_duration out = _
    rw [parse_duration_of_line out line hline, hparts]
    have hp0 : parseF64 (String.mk hh) = some (decToF64 (digitsToNat hh) 0) :=
      parseF64Chars_digits hh hne1 hd1
    have hp1 : parseF64 (String.mk mm) = some (decToF64 (digitsToNat mm) 0) :=
      parseF64Chars_digits mm hne2 hd2
    have hp2 : parseF64 (String.mk ss) = some (decToF64 (digitsToNat ss) 0) :=
      parseF64Chars_digits ss hne3 hd3
    dsimp only
    rw [hp0, hp1, hp2]
    dsimp only
    have hb1 : digitsToNat hh < 100000 := by
      have ha := digitsToNat_lt_pow hh hd1
      have hb : (10 : Nat) ^ hh.length ≤ 10 ^ 5 :=
        Nat.pow_le_pow_right (by norm_num) hl1
      omega
    have hb2 : digitsToNat mm < 100000 := by
      have ha := digitsToNat_lt_pow mm hd2
      have hb : (10 : Nat) ^ mm.length ≤ 10 ^ 5 :=
        Nat.pow_le_pow_right (by norm_num) hl2
      omega
    have hb3 : digitsToNat ss < 100000 := by
      have ha := digitsToNat_lt_pow ss hd3
      have hb : (10 : Nat) ^ ss.length ≤ 10 ^ 5 :=
        Nat.pow_le_pow_right (by norm_num) hl3
      omega
    rw [duration_arith (digitsToNat hh) (digitsToNat mm) (digitsToNat ss) 0
      hb1 hb2 (by omega) (by norm_num)]
    norm_num
  · intro hline hparts hd1 hd2 hd3 hd4 hne1 hne2 hne3 hl1 hl2 hl3 hl4
    show parse_duration out = _
    rw [parse_duration_of_line out line hline, hparts]
    have hp0 : parseF64 (String.mk hh) = some (decToF64 (digitsToNat hh) 0) :=
      parseF64Chars_digits hh hne1 hd1
    have hp1 : parseF64 (String.mk mm) = some (decToF64 (digitsToNat mm) 0) :=
      parseF64Chars_digits mm hne2 hd2
    have hp2 : parseF64 (String.mk (ss ++ ('.' : Char) :: fr)) =
        some (decToF64 (digitsToNat ss * 10 ^ fr.length + digitsToNat fr)
          fr.length) :=
      parseF64Chars_frac ss fr hne3 hd3 hd4
    dsimp only
    rw [hp0, hp1, hp2]
    dsimp only
    have hb1 : digitsToNat hh < 100000 := by
      have ha := digitsToNat_lt_pow hh hd1
      have hb : (10 : Nat) ^ hh.length ≤ 10 ^ 5 :=
        Nat.pow_le_pow_right (by norm_num) hl1
      omega
    have hb2 : digitsToNat mm < 100000 := by
      have ha := digitsToNat_lt_pow mm hd2
      have hb : (10 : Nat) ^ mm.length ≤ 10 ^ 5 :=
        Nat.pow_le_pow_right (by norm_num) hl2
      omega
    have hb3 : digitsToNat ss < 100000 := by
      have ha := digitsToNat_lt_pow ss hd3
      have hb : (10 : Nat) ^ ss.length ≤ 10 ^ 5 :=
        Nat.pow_le_pow_right (by norm_num) hl3
      omega
    have hbfr : digitsToNat fr < 10 ^ fr.length := digitsToNat_lt_pow fr hd4
    have hbNs : digitsToNat ss * 10 ^ fr.length + digitsToNat fr <
        100000 * 10 ^ fr.length := by
      have h1 : digitsToNat ss * 10 ^ fr.length ≤ 99999 * 10 ^ fr.length :=
        Nat.mul_le_mul_right _ (by omega)
      have h2 : (0 : Nat) < 10 ^ fr.length := Nat.pos_pow_of_pos _ (by norm_num)
      generalize 10 ^ fr.length = P at h1 h2 hbfr ⊢
      omega
    rw [duration_arith (digitsToNat hh) (digitsToNat mm)
      (digitsToNat ss * 10 ^ fr.length + digitsToNat fr) fr.length
      hb1 hb2 hbNs hl4]
    have hdiv : (digitsToNat ss * 10 ^ fr.length + digitsToNat fr) /
        10 ^ fr.length = digitsToNat ss := by
      rw [Nat.add_comm, Nat.mul_comm,
        Nat.add_mul_div_left _ _ (Nat.pos_pow_of_pos _ (by norm_num)),
        Nat.div_eq_of_lt hbfr, Nat.zero_add]
    rw [hdiv]

/-- C7 witness: on the concrete probe line `Duration: 01:02:03.45` the
fractional conjunct of `duration_parsing` gives
`1 * 3600 + 2 * 60 + 3 = 3723`, the `.45` truncated away. -/
theorem duration_parsing_witness :
    get_audio_duration (Except.ok "  Duration: 01:02:03.45, start: 0.0") =
      Except.ok 3723 := by
  have h := (duration_parsing "  Duration: 01:02:03.45, start: 0.0"
      "  Duration: 01:02:03.45, start: 0.0"
      ['0', '1'] ['0', '2'] ['0', '3'] ['4', '5']).2.2.2
  rw [h (by decide) (by decide) (by decide) (by decide) (by decide) (by decide)
    (by decide) (by decide) (by decide) (by decide) (by decide) (by decide)
    (by decide)]
  decide
